import Mathlib

/-!
Verification development for the org-chart visual (src/src/visual.ts).

The core data pipeline of the visual is embedded shallowly:

* `toKey`, `toText`            — cell normalization helpers (visual.ts, `toKey`/`toText`);
* `roleIndex`, `normalizeRows` — the row loop of `transform` (visual.ts 842-951);
* `attachedParent`, `childrenOf`, `rootChildren`, `buildSubtree`, `transformTree`
                               — the tree-building second half of `transform`
                                 (visual.ts 953-979), including `assignTotals`;
* `cloneNode`                  — `buildVisibleTree` (visual.ts 1555-1566);
* `computeDefaultCollapsedSet`, `applyDefaultExpandedLevels`
                               — visual.ts 990-999 and the update logic 593-603;
* `getPathToRoot`, `ensureNodeVisible` — the cycle-guarded ancestor walks
                                 (visual.ts 1543-1553 and 1568-1580);
* `expandOneLevel`, `toggleNodeCollapseAnchoredOneLevel`
                               — visual.ts 1443-1470 (collapse-state part);
* `fitToViewport`              — visual.ts 1495-1507 (transform computation).

Conventions.  The TypeScript code keeps its nodes in a JavaScript `Map`
keyed by the record id (`chartNodes`, `nodesById`).  Under the unique-id
invariant of the data model (stated in the spec data-model section and
assumed as a `Nodup` hypothesis in the theorems below) a `Map` built from
the record list preserves the record order, so the map is embedded as the
plain record list together with `lookupById` (= `Map.get`).  Mutable sets
of collapsed ids are embedded as `Finset String`.  JavaScript numbers are
embedded as `Rat` where arithmetic matters (`fitToViewport`); the claims
settled here do not depend on floating-point rounding.
-/

namespace OrgChart

/-- One normalized record produced by the row loop of `transform`
(interface `OrgChartDatum` in visual.ts).  The payload fields that no
verified property reads (title, division, avatar, details, metrics,
tooltip items, selection identity) are omitted; `id`, `parentId` and
`displayName` drive all tree logic. -/
structure OrgChartDatum where
  id : String
  parentId : Option String
  displayName : String
deriving Repr, DecidableEq

/-- JavaScript `String.prototype.trim`: strip leading and trailing
whitespace. -/
def trimString (s : String) : String :=
  ⟨((s.data.dropWhile Char.isWhitespace).reverse.dropWhile
      Char.isWhitespace).reverse⟩

/-- visual.ts `toKey`: null/undefined and the empty string collapse to
undefined, anything else is stringified and trimmed.  A cell is embedded
as `Option String` (`none` = null/undefined); host-side stringification
of non-string primitives happens before this point. -/
def toKey (value : Option String) : Option String :=
  match value with
  | none => none
  | some s => if s = "" then none else some (trimString s)

/-- visual.ts `toText` (same body as `toKey`). -/
def toText (value : Option String) : Option String :=
  toKey value

/-- One column of the bound table: its display name and the set of role
flags declared on it (`column.roles`). -/
structure RoleColumn where
  displayName : String
  roles : List String
deriving Repr, DecidableEq

/-- One raw table row: the cell list, `none` for null/undefined cells. -/
structure RawRow where
  cells : List (Option String)
deriving Repr, DecidableEq

/-- visual.ts `roleIndex` inside `transform`:
`columns.findIndex((column) => column.roles && column.roles[role])`. -/
def roleIndex (columns : List RoleColumn) (role : String) : Option Nat :=
  columns.findIdx? (fun c => c.roles.contains role)

/-- Indexing `row[i]`; an out-of-range access yields undefined. -/
def getCell (row : RawRow) (i : Nat) : Option String :=
  (row.cells.get? i).join

/-- The body of the `table.rows.forEach` loop of `transform` for one row:
rows whose employee-id cell normalizes to a falsy value (undefined or
empty after trimming) are skipped, `displayName` falls back to the id. -/
def normalizeRow (employeeIdx : Option Nat) (managerIdx : Option Nat)
    (nameIdx : Option Nat) (row : RawRow) : Option OrgChartDatum :=
  match employeeIdx with
  | none => none
  | some ei =>
    match toKey (getCell row ei) with
    | none => none
    | some employeeId =>
      if employeeId = "" then none
      else
        let parentId := toKey (match managerIdx with
          | some mi => getCell row mi
          | none => none)
        let displayName := (match nameIdx with
          | some ni => toText (getCell row ni)
          | none => none)
        some { id := employeeId, parentId := parentId,
               displayName := displayName.getD employeeId }

/-- The row loop of `transform`: one normalized record per valid row. -/
def normalizeRows (columns : List RoleColumn) (rows : List RawRow) :
    List OrgChartDatum :=
  rows.filterMap (normalizeRow (roleIndex columns "employeeId")
    (roleIndex columns "managerId") (roleIndex columns "displayName"))

/-- `nodesById.get` / `chartNodes.get`: the id-keyed map lookup. -/
def lookupById (nodes : List OrgChartDatum) (i : String) :
    Option OrgChartDatum :=
  nodes.find? (fun d => d.id = i)

/-- The attachment decision of the second `chartNodes.forEach` pass of
`transform`: a record with a truthy `parentId` different from its own id
that resolves in the node map attaches under that parent (`some p`);
otherwise it attaches under the synthetic root (`none`). -/
def attachedParent (nodes : List OrgChartDatum) (d : OrgChartDatum) :
    Option String :=
  match d.parentId with
  | some p =>
    if p ≠ "" ∧ p ≠ d.id ∧ (lookupById nodes p).isSome then some p else none
  | none => none

/-- The children pushed onto the node with id `i`, in record order. -/
def childrenOf (nodes : List OrgChartDatum) (i : String) :
    List OrgChartDatum :=
  nodes.filter (fun d => attachedParent nodes d = some i)

/-- The children pushed onto the synthetic root, in record order. -/
def rootChildren (nodes : List OrgChartDatum) : List OrgChartDatum :=
  nodes.filter (fun d => attachedParent nodes d = none)

/-- Interface `ChartNode` of visual.ts.  `totalChildCount` caches the
direct child count (`assignTotals`). -/
inductive ChartNode where
  | mk (id : String) (payload : Option OrgChartDatum)
       (children : List ChartNode) (totalChildCount : Nat)
deriving Repr

def ChartNode.id : ChartNode → String
  | .mk i _ _ _ => i

def ChartNode.payload : ChartNode → Option OrgChartDatum
  | .mk _ p _ _ => p

def ChartNode.children : ChartNode → List ChartNode
  | .mk _ _ cs _ => cs

def ChartNode.totalChildCount : ChartNode → Nat
  | .mk _ _ _ c => c

/-- Sentinel id of the synthetic root. -/
def virtualRootId : String := "__virtual__"

/-- The tree reachable from a record, unfolded along the `children`
pushes of `transform`; the fuel argument bounds the unfolding depth.
`transformTree` supplies fuel `nodes.length`, which theorem
`buildSubtree_fuel` style arguments below show is enough to unfold every
node reachable from the synthetic root. -/
def buildSubtree (nodes : List OrgChartDatum) : Nat → OrgChartDatum → ChartNode
  | 0, d => .mk d.id (some d) [] 0
  | fuel + 1, d =>
    .mk d.id (some d)
      ((childrenOf nodes d.id).map (buildSubtree nodes fuel)) 0

/-- The synthetic root with the forest of orphan-attached records. -/
def buildRoot (nodes : List OrgChartDatum) (fuel : Nat) : ChartNode :=
  .mk virtualRootId none ((rootChildren nodes).map (buildSubtree nodes fuel)) 0

mutual
/-- visual.ts `assignTotals`: recompute `totalChildCount` as the direct
child count over the whole tree. -/
def assignTotals : ChartNode → ChartNode
  | .mk i p cs _ => .mk i p (assignTotalsList cs) cs.length

def assignTotalsList : List ChartNode → List ChartNode
  | [] => []
  | c :: cs => assignTotals c :: assignTotalsList cs
end

/-- The full tree produced by `transform` for a record list: attachment,
then `assignTotals(virtualRoot)`. -/
def transformTree (nodes : List OrgChartDatum) : ChartNode :=
  assignTotals (buildRoot nodes nodes.length)

/-- Result of `transform` (tree and warnings; `nodesById` is represented
throughout by `lookupById` over the record list). -/
structure TransformResult where
  tree : Option ChartNode
  warnings : List String

/-- visual.ts `transform` for a present table: mandatory-role checks,
row normalization, emptiness check, tree construction.  The missing
`dataView` branch (warning "No data") precedes this and is not part of
the row-set quantification of the verified properties. -/
def transform (columns : List RoleColumn) (rows : List RawRow) :
    TransformResult :=
  if (roleIndex columns "employeeId").isNone then
    { tree := none, warnings := ["Employee Id field is required"] }
  else if (roleIndex columns "managerId").isNone then
    { tree := none, warnings := ["Manager Id field is required"] }
  else
    let nodes := normalizeRows columns rows
    if nodes.isEmpty then { tree := none, warnings := ["No valid rows"] }
    else { tree := some (transformTree nodes), warnings := [] }

/-- The collapsed test of `cloneNode` inside `buildVisibleTree`:
`payloadId ? collapsedNodes.has(payloadId) : false` — a node with no
payload (the synthetic root) or an empty payload id is never considered
collapsed. -/
def isCollapsedPayload (collapsed : Finset String) :
    Option OrgChartDatum → Bool
  | some d => if d.id = "" then false else decide (d.id ∈ collapsed)
  | none => false

mutual
/-- visual.ts `buildVisibleTree`/`cloneNode`: structural copy of the
full tree; a collapsed node keeps its payload and `totalChildCount` but
loses its children. -/
def cloneNode (collapsed : Finset String) : ChartNode → ChartNode
  | .mk i p cs c =>
    .mk i p (if isCollapsedPayload collapsed p then []
             else cloneNodeList collapsed cs) c

def cloneNodeList (collapsed : Finset String) :
    List ChartNode → List ChartNode
  | [] => []
  | c :: cs => cloneNode collapsed c :: cloneNodeList collapsed cs
end

mutual
/-- A node together with all of its descendants, in preorder. -/
def subnodes : ChartNode → List ChartNode
  | .mk i p cs c => .mk i p cs c :: subnodesList cs

def subnodesList : List ChartNode → List ChartNode
  | [] => []
  | c :: cs => subnodes c ++ subnodesList cs
end

/-- The payload records found at exactly the given depth below the given
forest, which sits at depth 0; this is the depth notion of
`d3.hierarchy` used by `computeDefaultCollapsedSet` (synthetic root at
depth 0). -/
def datumsAtDepthList : Nat → List ChartNode → List OrgChartDatum
  | 0, ts => ts.filterMap ChartNode.payload
  | k + 1, ts => datumsAtDepthList k (ts.flatMap ChartNode.children)

def datumsAtDepth (t : ChartNode) (k : Nat) : List OrgChartDatum :=
  datumsAtDepthList k [t]

/-- visual.ts `computeDefaultCollapsedSet`: the ids of payload-bearing
nodes at depth exactly `maxVisibleDepth` in the full tree (the synthetic
root has depth 0). -/
def computeDefaultCollapsedSet (nodes : List OrgChartDatum)
    (maxVisibleDepth : Nat) : Finset String :=
  ((datumsAtDepth (transformTree nodes) maxVisibleDepth).map
    OrgChartDatum.id).toFinset

/-- The default-collapse application inside `update` (visual.ts 593-603):
`levels <= 0` clears the collapsed set (fully expanded), otherwise the
set at depth `levels` is collapsed. -/
def applyDefaultExpandedLevels (nodes : List OrgChartDatum) (levels : Nat) :
    Finset String :=
  if levels = 0 then ∅ else computeDefaultCollapsedSet nodes levels

/-- The loop step `current = parentId ? nodesById.get(parentId) :
undefined` shared by `ensureNodeVisible` and `getPathToRoot`. -/
def nextNode (nodes : List OrgChartDatum) (d : OrgChartDatum) :
    Option OrgChartDatum :=
  match d.parentId with
  | some p => if p = "" then none else lookupById nodes p
  | none => none

/-- The while loop of `getPathToRoot`, with explicit fuel standing for
the unbounded loop; every value in `nodesById` carries a payload, so the
`current && current.payload` test is the `Option` match.  The
termination theorem for the walk shows that fuel `nodes.length + 1`
is never exhausted. -/
def getPathToRootAux (nodes : List OrgChartDatum) :
    Nat → List String → Option OrgChartDatum → List String
  | 0, _, _ => []
  | _ + 1, _, none => []
  | fuel + 1, visited, some d =>
    if d.id ∈ visited then []
    else d.id :: getPathToRootAux nodes fuel (d.id :: visited) (nextNode nodes d)

/-- visual.ts `getPathToRoot`: walk the `parentId` links from the node
to the root, guarded by a visited set. -/
def getPathToRoot (nodes : List OrgChartDatum) (nodeId : String) :
    List String :=
  getPathToRootAux nodes (nodes.length + 1) [] (lookupById nodes nodeId)

/-- The while loop of `ensureNodeVisible`: same walk, deleting every
visited id from the collapsed set. -/
def ensureNodeVisibleAux (nodes : List OrgChartDatum) :
    Nat → List String → Option OrgChartDatum → Finset String → Finset String
  | 0, _, _, S => S
  | _ + 1, _, none, S => S
  | fuel + 1, visited, some d, S =>
    if d.id ∈ visited then S
    else ensureNodeVisibleAux nodes fuel (d.id :: visited) (nextNode nodes d)
      (S.erase d.id)

/-- visual.ts `ensureNodeVisible`. -/
def ensureNodeVisible (nodes : List OrgChartDatum) (collapsed : Finset String)
    (nodeId : String) : Finset String :=
  ensureNodeVisibleAux nodes (nodes.length + 1) [] (lookupById nodes nodeId)
    collapsed

/-- visual.ts `expandOneLevel`: un-collapse the node, then mark every
direct child (in the full tree) collapsed. -/
def expandOneLevel (nodes : List OrgChartDatum) (collapsed : Finset String)
    (nodeId : String) : Finset String :=
  let afterDelete := collapsed.erase nodeId
  match lookupById nodes nodeId with
  | some d => (childrenOf nodes d.id).foldl (fun s c => insert c.id s) afterDelete
  | none => afterDelete

/-- The collapse-state effect of `toggleNodeCollapseAnchoredOneLevel`:
a collapsed node is expanded one level, an expanded node is collapsed
whole.  The screen-anchoring part of the function only rewrites the
viewport transform and does not touch the collapsed set. -/
def toggleNodeCollapseAnchoredOneLevel (nodes : List OrgChartDatum)
    (collapsed : Finset String) (nodeId : String) : Finset String :=
  if nodeId ∈ collapsed then expandOneLevel nodes collapsed nodeId
  else insert nodeId collapsed

/-- The `layoutBounds` fields read by `fitToViewport`. -/
structure LayoutBounds where
  minX : ℚ
  maxX : ℚ
  minY : ℚ
  maxY : ℚ
  padding : ℚ
deriving Repr, DecidableEq

/-- The affine transform produced by `fitToViewport`. -/
structure FitTransform where
  scale : ℚ
  translateX : ℚ
  translateY : ℚ
deriving Repr, DecidableEq

/-- Content width used by `fitToViewport`: bounding box plus padding on
both sides. -/
def contentWidth (b : LayoutBounds) : ℚ := b.maxX - b.minX + b.padding * 2

/-- Content height used by `fitToViewport`. -/
def contentHeight (b : LayoutBounds) : ℚ := b.maxY - b.minY + b.padding * 2

/-- visual.ts `fitToViewport` (the transform computation; the guards on
zoom being enabled and bounds being present, and the animated
application, are outside the arithmetic).  Note both viewport dimensions
are clamped below by 1. -/
def fitToViewport (b : LayoutBounds) (viewportWidth viewportHeight : ℚ) :
    FitTransform :=
  let width := max viewportWidth 1
  let height := max viewportHeight 1
  let cw := contentWidth b
  let ch := contentHeight b
  let scale := min (width / cw) (height / ch)
  { scale := scale
    translateX := (width - cw * scale) / 2
    translateY := (height - ch * scale) / 2 }

/-- The k-fold ancestor along the attachment relation: `parentDatum`
resolves the attached parent record, `ancAt k` iterates it. -/
def parentDatum (nodes : List OrgChartDatum) (d : OrgChartDatum) :
    Option OrgChartDatum :=
  (attachedParent nodes d).bind (lookupById nodes)

def ancAt (nodes : List OrgChartDatum) : Nat → OrgChartDatum → Option OrgChartDatum
  | 0, d => some d
  | k + 1, d => (parentDatum nodes d).bind (ancAt nodes k)

mutual
/-- All payload records of a tree, in preorder. -/
def treeDatums : ChartNode → List OrgChartDatum
  | .mk _ p cs _ => (match p with | some d => [d] | none => []) ++ treeDatumsList cs

def treeDatumsList : List ChartNode → List OrgChartDatum
  | [] => []
  | c :: cs => treeDatums c ++ treeDatumsList cs
end

/-- The row-loop acceptance test of `transform`: the employee-id cell of
the row normalizes to a truthy (non-empty) key, so the row is not
skipped by `if (!employeeId) return`. -/
def hasValidEmployeeId (columns : List RoleColumn) (row : RawRow) : Bool :=
  match roleIndex columns "employeeId" with
  | some i =>
    match toKey (getCell row i) with
    | some employeeId => if employeeId = "" then false else true
    | none => false
  | none => false

/-! ### Lookup lemmas -/

/-- The ids of a record list. -/
def nodeIds (nodes : List OrgChartDatum) : List String :=
  nodes.map OrgChartDatum.id

theorem lookupById_eq_some {nodes : List OrgChartDatum} {p : String}
    {d : OrgChartDatum} (h : lookupById nodes p = some d) :
    d ∈ nodes ∧ d.id = p := by
  refine ⟨List.mem_of_find?_eq_some h, ?_⟩
  have := List.find?_some h
  exact of_decide_eq_true this

theorem lookupById_self {nodes : List OrgChartDatum} {d : OrgChartDatum}
    (hn : (nodeIds nodes).Nodup) (hd : d ∈ nodes) :
    lookupById nodes d.id = some d := by
  induction nodes with
  | nil => cases hd
  | cons e rest ih =>
    have hn' : (nodeIds rest).Nodup := (List.nodup_cons.mp hn).2
    rcases List.mem_cons.mp hd with h | h
    · subst h
      simp [lookupById, List.find?]
    · have hne : e.id ≠ d.id := by
        intro hEq
        exact (List.nodup_cons.mp hn).1 (hEq ▸ List.mem_map_of_mem OrgChartDatum.id h)
      have := ih hn' h
      simp only [lookupById, List.find?] at this ⊢
      rw [show (decide (e.id = d.id)) = false by simpa using hne]
      exact this

theorem lookupById_eq_none {nodes : List OrgChartDatum} {p : String} :
    lookupById nodes p = none ↔ ∀ d ∈ nodes, d.id ≠ p := by
  unfold lookupById
  rw [List.find?_eq_none]
  simp

theorem lookupById_isSome {nodes : List OrgChartDatum} {p : String} :
    (lookupById nodes p).isSome = true ↔ ∃ d ∈ nodes, d.id = p := by
  rcases h : lookupById nodes p with _ | d
  · simp only [Option.isSome_none, Bool.false_eq_true, false_iff]
    intro ⟨d, hd, hid⟩
    exact lookupById_eq_none.mp h d hd hid
  · have := lookupById_eq_some h
    simp only [Option.isSome_some, true_iff]
    exact ⟨d, this.1, this.2⟩

/-! ### Ancestor iteration -/

theorem ancAt_add (nodes : List OrgChartDatum) (a b : Nat) (d : OrgChartDatum) :
    ancAt nodes (a + b) d = (ancAt nodes a d).bind (ancAt nodes b) := by
  induction a generalizing d with
  | zero => simp [ancAt]
  | succ a ih =>
    have : a + 1 + b = (a + b) + 1 := by omega
    rw [this]
    simp only [ancAt]
    rcases parentDatum nodes d with _ | e
    · simp
    · simpa using ih e

theorem ancAt_one (nodes : List OrgChartDatum) (d : OrgChartDatum) :
    ancAt nodes 1 d = parentDatum nodes d := by
  simp only [ancAt]
  rcases parentDatum nodes d with _ | e <;> simp [ancAt]

/-- Peeling the topmost step of the ancestor iteration. -/
theorem ancAt_succ_top (nodes : List OrgChartDatum) (k : Nat) (d : OrgChartDatum) :
    ancAt nodes (k + 1) d = (ancAt nodes k d).bind (parentDatum nodes) := by
  rw [ancAt_add nodes k 1 d]
  congr 1
  funext e
  exact ancAt_one nodes e

theorem ancAt_isSome_of_le {nodes : List OrgChartDatum} {j i : Nat}
    {d e : OrgChartDatum} (hij : i ≤ j) (h : ancAt nodes j d = some e) :
    (ancAt nodes i d).isSome = true := by
  have : ancAt nodes (i + (j - i)) d = some e := by
    rw [show i + (j - i) = j by omega]; exact h
  rw [ancAt_add] at this
  rcases hsome : ancAt nodes i d with _ | x
  · rw [hsome] at this; simp at this
  · simp

theorem parentDatum_mem {nodes : List OrgChartDatum} {d e : OrgChartDatum}
    (h : parentDatum nodes d = some e) : e ∈ nodes := by
  simp only [parentDatum, Option.bind_eq_some] at h
  obtain ⟨p, _, hl⟩ := h
  exact (lookupById_eq_some hl).1

theorem ancAt_mem {nodes : List OrgChartDatum} {k : Nat} {d e : OrgChartDatum}
    (hd : d ∈ nodes) (h : ancAt nodes k d = some e) : e ∈ nodes := by
  induction k generalizing d with
  | zero => simp only [ancAt, Option.some_inj] at h; exact h ▸ hd
  | succ k ih =>
    simp only [ancAt, Option.bind_eq_some] at h
    obtain ⟨x, hx, hrest⟩ := h
    exact ih (parentDatum_mem hx) hrest

/-- A root-attached record has no attached ancestors. -/
theorem ancAt_of_root {nodes : List OrgChartDatum} {c : OrgChartDatum}
    (hc : attachedParent nodes c = none) {j : Nat} (hj : 1 ≤ j) :
    ancAt nodes j c = none := by
  rcases j with _ | j
  · omega
  · simp [ancAt, parentDatum, hc]

/-! ### Attachment basics -/

theorem attachedParent_eq_some_iff {nodes : List OrgChartDatum}
    {d : OrgChartDatum} {p : String} :
    attachedParent nodes d = some p ↔
      d.parentId = some p ∧ p ≠ "" ∧ p ≠ d.id ∧
        (lookupById nodes p).isSome = true := by
  unfold attachedParent
  rcases hq : d.parentId with _ | q
  · simp
  · show (if q ≠ "" ∧ q ≠ d.id ∧ (lookupById nodes q).isSome = true
          then some q else none) = some p ↔ _
    by_cases hcond : q ≠ "" ∧ q ≠ d.id ∧ (lookupById nodes q).isSome = true
    · simp only [if_pos hcond, Option.some_inj]
      constructor
      · rintro rfl
        exact ⟨rfl, hcond⟩
      · rintro ⟨hqp, _⟩
        exact hqp
    · simp only [if_neg hcond]
      constructor
      · intro h; cases h
      · rintro ⟨hqp, h2, h3, h4⟩
        cases hqp
        exact absurd ⟨h2, h3, h4⟩ hcond

theorem attachedParent_ne_self {nodes : List OrgChartDatum}
    {d : OrgChartDatum} {p : String} (h : attachedParent nodes d = some p) :
    p ≠ d.id :=
  (attachedParent_eq_some_iff.mp h).2.2.1

theorem attachedParent_ne_empty {nodes : List OrgChartDatum}
    {d : OrgChartDatum} {p : String} (h : attachedParent nodes d = some p) :
    p ≠ "" :=
  (attachedParent_eq_some_iff.mp h).2.1

theorem attachedParent_resolves {nodes : List OrgChartDatum}
    {d : OrgChartDatum} {p : String} (h : attachedParent nodes d = some p) :
    (lookupById nodes p).isSome = true :=
  (attachedParent_eq_some_iff.mp h).2.2.2

theorem mem_childrenOf {nodes : List OrgChartDatum} {i : String}
    {d : OrgChartDatum} :
    d ∈ childrenOf nodes i ↔ d ∈ nodes ∧ attachedParent nodes d = some i := by
  simp [childrenOf]

theorem mem_rootChildren {nodes : List OrgChartDatum} {d : OrgChartDatum} :
    d ∈ rootChildren nodes ↔ d ∈ nodes ∧ attachedParent nodes d = none := by
  simp [rootChildren]

/-- Under unique ids, resolving the attached parent of a child of `d`
gives back `d` itself. -/
theorem parentDatum_of_child {nodes : List OrgChartDatum} {d c : OrgChartDatum}
    (hn : (nodeIds nodes).Nodup) (hd : d ∈ nodes)
    (hc : attachedParent nodes c = some d.id) :
    parentDatum nodes c = some d := by
  simp [parentDatum, hc, lookupById_self hn hd]

theorem parentDatum_eq_iff_attached {nodes : List OrgChartDatum}
    {c e : OrgChartDatum} :
    parentDatum nodes c = some e ↔
      attachedParent nodes c = some e.id ∧ lookupById nodes e.id = some e := by
  constructor
  · intro h
    simp only [parentDatum, Option.bind_eq_some] at h
    obtain ⟨p, hp, hl⟩ := h
    have hpe := (lookupById_eq_some hl).2
    subst hpe
    exact ⟨hp, hl⟩
  · intro ⟨h1, h2⟩
    simp [parentDatum, h1, h2]

/-! ### Structural equations for the tree operations -/

@[simp] theorem ChartNode.id_mk (i p cs c) : (ChartNode.mk i p cs c).id = i := rfl

@[simp] theorem ChartNode.payload_mk (i p cs c) :
    (ChartNode.mk i p cs c).payload = p := rfl

@[simp] theorem ChartNode.children_mk (i p cs c) :
    (ChartNode.mk i p cs c).children = cs := rfl

@[simp] theorem ChartNode.totalChildCount_mk (i p cs c) :
    (ChartNode.mk i p cs c).totalChildCount = c := rfl

theorem assignTotalsList_eq_map (cs : List ChartNode) :
    assignTotalsList cs = cs.map assignTotals := by
  induction cs with
  | nil => rfl
  | cons c cs ih => simp [assignTotalsList, ih]

theorem cloneNodeList_eq_map (S : Finset String) (cs : List ChartNode) :
    cloneNodeList S cs = cs.map (cloneNode S) := by
  induction cs with
  | nil => rfl
  | cons c cs ih => simp [cloneNodeList, ih]

theorem subnodesList_eq_flatMap (cs : List ChartNode) :
    subnodesList cs = cs.flatMap subnodes := by
  induction cs with
  | nil => rfl
  | cons c cs ih => simp [subnodesList, ih]

theorem treeDatumsList_eq_flatMap (cs : List ChartNode) :
    treeDatumsList cs = cs.flatMap treeDatums := by
  induction cs with
  | nil => rfl
  | cons c cs ih => simp [treeDatumsList, ih]

theorem assignTotals_def (i p cs c) :
    assignTotals (.mk i p cs c) = .mk i p (cs.map assignTotals) cs.length := by
  rw [assignTotals, assignTotalsList_eq_map]

theorem cloneNode_def (S i p cs c) :
    cloneNode S (.mk i p cs c) =
      .mk i p (if isCollapsedPayload S p then [] else cs.map (cloneNode S)) c := by
  rw [cloneNode, cloneNodeList_eq_map]

theorem subnodes_def (i p cs c) :
    subnodes (.mk i p cs c) = .mk i p cs c :: cs.flatMap subnodes := by
  rw [subnodes, subnodesList_eq_flatMap]

theorem treeDatums_def (i p cs c) :
    treeDatums (.mk i p cs c) =
      (match p with | some d => [d] | none => []) ++ cs.flatMap treeDatums := by
  simp only [treeDatums]
  rw [treeDatumsList_eq_flatMap]

mutual
theorem treeDatums_assignTotals : (t : ChartNode) →
    treeDatums (assignTotals t) = treeDatums t
  | .mk i p cs c => by
    simp only [assignTotals, treeDatums]
    rw [treeDatumsList_assignTotalsList cs]

theorem treeDatumsList_assignTotalsList : (cs : List ChartNode) →
    treeDatumsList (assignTotalsList cs) = treeDatumsList cs
  | [] => rfl
  | c :: cs => by
    simp only [assignTotalsList, treeDatumsList]
    rw [treeDatums_assignTotals c, treeDatumsList_assignTotalsList cs]
end

@[simp] theorem payload_assignTotals (t : ChartNode) :
    (assignTotals t).payload = t.payload := by
  cases t with
  | mk i p cs c => rw [assignTotals_def]; rfl

@[simp] theorem children_assignTotals (t : ChartNode) :
    (assignTotals t).children = t.children.map assignTotals := by
  cases t with
  | mk i p cs c => rw [assignTotals_def]; rfl

/-! ### Distinctness along a rooted ascent -/

/-- The record sits at depth `k + 1` in the full tree: its `k`-fold
attachment ancestor exists and is root-attached. -/
def rootedAt (nodes : List OrgChartDatum) (r : OrgChartDatum) (k : Nat) : Prop :=
  ∃ c, ancAt nodes k r = some c ∧ attachedParent nodes c = none

instance rootedAt.decidable (nodes : List OrgChartDatum) (r : OrgChartDatum)
    (k : Nat) : Decidable (rootedAt nodes r k) :=
  match h : ancAt nodes k r with
  | none => .isFalse (by simp [rootedAt, h])
  | some c => decidable_of_iff (attachedParent nodes c = none)
      (by simp [rootedAt, h])

/-- On an ascent that ends at a root-attached record, no intermediate
record repeats: a repeat would splice into a strictly shorter ascent to
the same root-attached record and force an attached ancestor above it. -/
theorem ancAt_inj_of_rooted {nodes : List OrgChartDatum}
    {r c : OrgChartDatum} {j : Nat} (hc : attachedParent nodes c = none)
    (hj : ancAt nodes j r = some c) {i i' : Nat} (hii : i < i') (hi'j : i' ≤ j) :
    ancAt nodes i r ≠ ancAt nodes i' r := by
  intro hEq
  have hsplit : ancAt nodes j r = (ancAt nodes i' r).bind (ancAt nodes (j - i')) := by
    rw [← ancAt_add]
    congr 1
    omega
  have hshort : ancAt nodes (i + (j - i')) r = some c := by
    rw [ancAt_add, hEq, ← hsplit, hj]
  have hdecomp : ancAt nodes j r
      = (ancAt nodes (i + (j - i')) r).bind (ancAt nodes (i' - i)) := by
    rw [← ancAt_add]
    congr 1
    omega
  rw [hshort] at hdecomp
  simp only [Option.some_bind] at hdecomp
  rw [ancAt_of_root hc (by omega)] at hdecomp
  rw [hj] at hdecomp
  cases hdecomp

/-- The depth of any record below a root-attached ancestor is bounded by
the record count: the ascent visits pairwise distinct records. -/
theorem rooted_depth_lt_length {nodes : List OrgChartDatum}
    {r c : OrgChartDatum} {j : Nat} (hr : r ∈ nodes)
    (hc : attachedParent nodes c = none) (hj : ancAt nodes j r = some c) :
    j < nodes.length := by
  have hsome : ∀ i : Fin (j + 1), (ancAt nodes i.val r).isSome = true := by
    intro i
    exact ancAt_isSome_of_le (by omega) hj
  let φ : Fin (j + 1) → OrgChartDatum := fun i => (ancAt nodes i.val r).get (hsome i)
  have hmem : ∀ i, φ i ∈ nodes.toFinset := by
    intro i
    rcases h : ancAt nodes i.val r with _ | x
    · have := hsome i; rw [h] at this; cases this
    · have hx : φ i = x := by simp only [φ]; simp [h]
      rw [hx, List.mem_toFinset]
      exact ancAt_mem hr h
  have hinj : Function.Injective φ := by
    intro a b hab
    by_contra hne
    rcases Nat.lt_or_ge a.val b.val with h | h
    · have : ancAt nodes a.val r ≠ ancAt nodes b.val r :=
        ancAt_inj_of_rooted hc hj h (by omega)
      apply this
      rw [← Option.some_get (hsome a), ← Option.some_get (hsome b)]
      exact congrArg some hab
    · have hba : b.val < a.val := by
        rcases Nat.lt_or_ge b.val a.val with h2 | h2
        · exact h2
        · exact absurd (Fin.ext (by omega)) hne
      have : ancAt nodes b.val r ≠ ancAt nodes a.val r :=
        ancAt_inj_of_rooted hc hj hba (by omega)
      apply this
      rw [← Option.some_get (hsome b), ← Option.some_get (hsome a)]
      exact congrArg some hab.symm
  have hcard : j + 1 ≤ nodes.toFinset.card := by
    have := @Finset.card_le_card_of_injOn (Fin (j + 1)) OrgChartDatum
      Finset.univ nodes.toFinset φ (fun i _ => hmem i)
      (Function.Injective.injOn hinj)
    simpa using this
  have := List.toFinset_card_le nodes
  omega

/-! ### Membership characterization of the built tree -/

@[simp] theorem payload_buildSubtree (nodes : List OrgChartDatum) (f : Nat)
    (d : OrgChartDatum) : (buildSubtree nodes f d).payload = some d := by
  cases f <;> rfl

@[simp] theorem id_buildSubtree (nodes : List OrgChartDatum) (f : Nat)
    (d : OrgChartDatum) : (buildSubtree nodes f d).id = d.id := by
  cases f <;> rfl

theorem treeDatums_buildSubtree_zero (nodes : List OrgChartDatum)
    (d : OrgChartDatum) : treeDatums (buildSubtree nodes 0 d) = [d] := rfl

theorem treeDatums_buildSubtree_succ (nodes : List OrgChartDatum) (f : Nat)
    (d : OrgChartDatum) :
    treeDatums (buildSubtree nodes (f + 1) d) =
      d :: (childrenOf nodes d.id).flatMap
        (fun c => treeDatums (buildSubtree nodes f c)) := by
  show treeDatums (.mk d.id (some d)
    ((childrenOf nodes d.id).map (buildSubtree nodes f)) 0) = _
  rw [treeDatums_def]
  simp [List.flatMap_map, Function.comp]

/-- A record occurs in the subtree built below `d` exactly when some
iterate of its attachment-parent chain hits `d` within the fuel bound. -/
theorem mem_treeDatums_buildSubtree {nodes : List OrgChartDatum}
    (hn : (nodeIds nodes).Nodup) {f : Nat} {d r : OrgChartDatum}
    (hd : d ∈ nodes) :
    r ∈ treeDatums (buildSubtree nodes f d) ↔
      r ∈ nodes ∧ ∃ k ≤ f, ancAt nodes k r = some d := by
  induction f generalizing d with
  | zero =>
    rw [treeDatums_buildSubtree_zero]
    constructor
    · intro h
      rw [List.mem_singleton] at h
      subst h
      exact ⟨hd, 0, Nat.le_refl 0, rfl⟩
    · rintro ⟨hr, k, hk, hanc⟩
      have hk0 : k = 0 := by omega
      subst hk0
      simp only [ancAt, Option.some_inj] at hanc
      simp [hanc]
  | succ f ih =>
    rw [treeDatums_buildSubtree_succ]
    simp only [List.mem_cons, List.mem_flatMap]
    constructor
    · rintro (rfl | ⟨c, hcmem, hrsub⟩)
      · exact ⟨hd, 0, by omega, rfl⟩
      · have hc := mem_childrenOf.mp hcmem
        obtain ⟨hr, k, hkf, hanc⟩ := (ih hc.1).mp hrsub
        refine ⟨hr, k + 1, by omega, ?_⟩
        rw [ancAt_succ_top, hanc]
        simp only [Option.some_bind]
        exact parentDatum_of_child hn hd hc.2
    · rintro ⟨hr, k, hk, hanc⟩
      cases k with
      | zero =>
        simp only [ancAt, Option.some_inj] at hanc
        exact Or.inl hanc
      | succ k =>
        rw [ancAt_succ_top] at hanc
        obtain ⟨c, hkc, hpc⟩ := Option.bind_eq_some.mp hanc
        have h2 := parentDatum_eq_iff_attached.mp hpc
        refine Or.inr ⟨c, mem_childrenOf.mpr ⟨ancAt_mem hr hkc, h2.1⟩, ?_⟩
        exact (ih (ancAt_mem hr hkc)).mpr ⟨hr, k, by omega, hkc⟩

theorem treeDatums_buildRoot (nodes : List OrgChartDatum) (fuel : Nat) :
    treeDatums (buildRoot nodes fuel) =
      (rootChildren nodes).flatMap
        (fun c => treeDatums (buildSubtree nodes fuel c)) := by
  unfold buildRoot
  rw [treeDatums_def]
  simp [List.flatMap_map, Function.comp]

/-- A record occurs in the full tree of `transform` exactly when its
attachment-ancestor chain reaches a root-attached record. -/
theorem mem_treeDatums_transformTree {nodes : List OrgChartDatum}
    (hn : (nodeIds nodes).Nodup) {r : OrgChartDatum} :
    r ∈ treeDatums (transformTree nodes) ↔
      r ∈ nodes ∧ ∃ k, rootedAt nodes r k := by
  unfold transformTree
  rw [treeDatums_assignTotals, treeDatums_buildRoot]
  simp only [List.mem_flatMap]
  constructor
  · rintro ⟨c, hcmem, hrsub⟩
    have hc := mem_rootChildren.mp hcmem
    obtain ⟨hr, k, hk, hanc⟩ := (mem_treeDatums_buildSubtree hn hc.1).mp hrsub
    exact ⟨hr, k, c, hanc, hc.2⟩
  · rintro ⟨hr, k, c, hanc, hcroot⟩
    have hcmem : c ∈ nodes := ancAt_mem hr hanc
    have hklt : k < nodes.length := rooted_depth_lt_length hr hcroot hanc
    exact ⟨c, mem_rootChildren.mpr ⟨hcmem, hcroot⟩,
      (mem_treeDatums_buildSubtree hn hcmem).mpr ⟨hr, k, by omega, hanc⟩⟩

theorem datumsAtDepthList_nil (k : Nat) : datumsAtDepthList k [] = [] := by
  induction k with
  | zero => rfl
  | succ k ih => simp only [datumsAtDepthList, List.flatMap_nil]; exact ih

theorem datumsAtDepthList_assignTotals (k : Nat) (ts : List ChartNode) :
    datumsAtDepthList k (ts.map assignTotals) = datumsAtDepthList k ts := by
  induction k generalizing ts with
  | zero =>
    simp only [datumsAtDepthList, List.filterMap_map]
    congr 1
    funext t
    exact payload_assignTotals t
  | succ k ih =>
    simp only [datumsAtDepthList]
    rw [show (ts.map assignTotals).flatMap ChartNode.children
        = (ts.flatMap ChartNode.children).map assignTotals by
      simp [List.flatMap_map, List.map_flatMap]]
    exact ih _

theorem children_buildSubtree_succ (nodes : List OrgChartDatum) (f : Nat)
    (d : OrgChartDatum) :
    (buildSubtree nodes (f + 1) d).children =
      (childrenOf nodes d.id).map (buildSubtree nodes f) := rfl

/-- Depth-stratified membership for a forest of built subtrees: the
record at depth `k` below the forest roots is the one whose `k`-fold
attachment ancestor is one of the roots. -/
theorem mem_datumsAtDepthList_build {nodes : List OrgChartDatum}
    (hn : (nodeIds nodes).Nodup) :
    ∀ (k f : Nat) (l : List OrgChartDatum) (r : OrgChartDatum),
      (∀ c ∈ l, c ∈ nodes) →
      (r ∈ datumsAtDepthList k (l.map (buildSubtree nodes f)) ↔
        r ∈ nodes ∧ k ≤ f ∧ ∃ c ∈ l, ancAt nodes k r = some c) := by
  intro k
  induction k with
  | zero =>
    intro f l r hl
    simp only [datumsAtDepthList, List.mem_filterMap, List.mem_map]
    constructor
    · rintro ⟨t, ⟨c, hcl, rfl⟩, hpt⟩
      rw [payload_buildSubtree] at hpt
      obtain rfl := Option.some_inj.mp hpt
      exact ⟨hl _ hcl, Nat.zero_le f, c, hcl, rfl⟩
    · rintro ⟨hr, _, c, hcl, hanc⟩
      simp only [ancAt, Option.some_inj] at hanc
      subst hanc
      exact ⟨buildSubtree nodes f r, ⟨r, hcl, rfl⟩, payload_buildSubtree nodes f r⟩
  | succ k ih =>
    intro f l r hl
    cases f with
    | zero =>
      have hz : (l.map (buildSubtree nodes 0)).flatMap ChartNode.children = [] := by
        simp [List.flatMap_map, buildSubtree, Function.comp]
      simp only [datumsAtDepthList, hz, datumsAtDepthList_nil]
      constructor
      · intro h; cases h
      · rintro ⟨_, hk, _⟩; omega
    | succ f =>
      have hstep : (l.map (buildSubtree nodes (f + 1))).flatMap ChartNode.children
          = (l.flatMap (fun c => childrenOf nodes c.id)).map
              (buildSubtree nodes f) := by
        simp [List.flatMap_map, List.map_flatMap, children_buildSubtree_succ,
          Function.comp]
      simp only [datumsAtDepthList, hstep]
      rw [ih f _ r (by
        intro c hc
        rw [List.mem_flatMap] at hc
        obtain ⟨e, _, hce⟩ := hc
        exact (mem_childrenOf.mp hce).1)]
      constructor
      · rintro ⟨hr, hkf, c', hc'mem, hanc⟩
        rw [List.mem_flatMap] at hc'mem
        obtain ⟨c, hcl, hcc⟩ := hc'mem
        have hcc' := mem_childrenOf.mp hcc
        refine ⟨hr, by omega, c, hcl, ?_⟩
        rw [ancAt_succ_top, hanc]
        simp only [Option.some_bind]
        exact parentDatum_of_child hn (hl c hcl) hcc'.2
      · rintro ⟨hr, hkf, c, hcl, hanc⟩
        rw [ancAt_succ_top] at hanc
        obtain ⟨c', hc'anc, hpc⟩ := Option.bind_eq_some.mp hanc
        have h2 := parentDatum_eq_iff_attached.mp hpc
        refine ⟨hr, by omega, c', ?_, hc'anc⟩
        rw [List.mem_flatMap]
        exact ⟨c, hcl, mem_childrenOf.mpr ⟨ancAt_mem hr hc'anc, h2.1⟩⟩

/-! ### The built tree has no duplicate records -/

/-- The record is not on an attachment cycle. -/
def NoCycleThrough (nodes : List OrgChartDatum) (d : OrgChartDatum) : Prop :=
  ∀ j, 0 < j → ancAt nodes j d ≠ some d

theorem noCycleThrough_of_root {nodes : List OrgChartDatum}
    {c : OrgChartDatum} (hc : attachedParent nodes c = none) :
    NoCycleThrough nodes c := by
  intro j hj h
  rw [ancAt_of_root hc hj] at h
  cases h

theorem noCycleThrough_child {nodes : List OrgChartDatum}
    {d c : OrgChartDatum} (hn : (nodeIds nodes).Nodup) (hd : d ∈ nodes)
    (hc : attachedParent nodes c = some d.id)
    (hnc : NoCycleThrough nodes d) : NoCycleThrough nodes c := by
  intro j hj h
  have hp : parentDatum nodes c = some d := parentDatum_of_child hn hd hc
  have h1 : ancAt nodes (j + 1) c = some d := by
    rw [ancAt_succ_top, h, Option.some_bind, hp]
  have h2 : ancAt nodes (j + 1) c = ancAt nodes j d := by
    rw [show j + 1 = 1 + j by omega, ancAt_add, ancAt_one, hp, Option.some_bind]
  exact hnc j hj (h2 ▸ h1)

/-- Two different children of a cycle-free node have disjoint subtrees
in the attachment-ancestor sense. -/
theorem subtree_disjoint_of_children {nodes : List OrgChartDatum}
    (hn : (nodeIds nodes).Nodup) {d c c' : OrgChartDatum} (hd : d ∈ nodes)
    (hc : attachedParent nodes c = some d.id)
    (hc' : attachedParent nodes c' = some d.id)
    (hnc : NoCycleThrough nodes d) (hne : c ≠ c') {r : OrgChartDatum}
    {k k' : Nat} (h1 : ancAt nodes k r = some c)
    (h2 : ancAt nodes k' r = some c') : False := by
  have key : ∀ (x y : OrgChartDatum) (a b : Nat), a < b →
      attachedParent nodes x = some d.id → attachedParent nodes y = some d.id →
      ancAt nodes a r = some x → ancAt nodes b r = some y → False := by
    intro x y a b hab hx hy hxa hyb
    have hsplit : ancAt nodes b r = (ancAt nodes a r).bind (ancAt nodes (b - a)) := by
      rw [← ancAt_add]; congr 1; omega
    rw [hxa, Option.some_bind, hyb] at hsplit
    have hm : 0 < b - a := by omega
    have hup : ancAt nodes (b - a + 1) x = some d := by
      rw [ancAt_succ_top, ← hsplit, Option.some_bind]
      exact parentDatum_of_child hn hd hy
    have hdown : ancAt nodes (b - a + 1) x = ancAt nodes (b - a) d := by
      rw [show b - a + 1 = 1 + (b - a) by omega, ancAt_add, ancAt_one,
        parentDatum_of_child hn hd hx, Option.some_bind]
    exact hnc (b - a) hm (hdown ▸ hup)
  rcases Nat.lt_trichotomy k k' with h | h | h
  · exact key c c' k k' h hc hc' h1 h2
  · subst h
    rw [h1] at h2
    exact hne (Option.some_inj.mp h2)
  · exact key c' c k' k h hc' hc h2 h1

/-- Subtrees below a cycle-free record carry pairwise distinct records. -/
theorem treeDatums_buildSubtree_nodup {nodes : List OrgChartDatum}
    (hn : (nodeIds nodes).Nodup) :
    ∀ (f : Nat) {d : OrgChartDatum}, d ∈ nodes → NoCycleThrough nodes d →
      (treeDatums (buildSubtree nodes f d)).Nodup := by
  intro f
  induction f with
  | zero =>
    intro d _ _
    rw [treeDatums_buildSubtree_zero]
    exact List.nodup_singleton d
  | succ f ih =>
    intro d hd hnc
    rw [treeDatums_buildSubtree_succ, List.nodup_cons]
    constructor
    · intro hmem
      rw [List.mem_flatMap] at hmem
      obtain ⟨c, hcl, hdsub⟩ := hmem
      have hcc := mem_childrenOf.mp hcl
      obtain ⟨_, k, _, hanc⟩ := (mem_treeDatums_buildSubtree hn hcc.1).mp hdsub
      have : ancAt nodes (k + 1) d = some d := by
        rw [ancAt_succ_top, hanc, Option.some_bind]
        exact parentDatum_of_child hn hd hcc.2
      exact hnc (k + 1) (by omega) this
    · rw [List.nodup_flatMap]
      constructor
      · intro c hcl
        have hcc := mem_childrenOf.mp hcl
        exact ih hcc.1 (noCycleThrough_child hn hd hcc.2 hnc)
      · have hchildNodup : (childrenOf nodes d.id).Nodup :=
          List.Nodup.filter _ (List.Nodup.of_map OrgChartDatum.id hn)
        refine List.Pairwise.imp_of_mem ?_ hchildNodup
        intro c c' hcl hc'l hne
        intro r hr hr'
        have hcc := mem_childrenOf.mp hcl
        have hcc' := mem_childrenOf.mp hc'l
        obtain ⟨_, k, _, h1⟩ := (mem_treeDatums_buildSubtree hn hcc.1).mp hr
        obtain ⟨_, k', _, h2⟩ := (mem_treeDatums_buildSubtree hn hcc'.1).mp hr'
        exact subtree_disjoint_of_children hn hd hcc.2 hcc'.2 hnc hne h1 h2

/-- The full tree of `transform` carries pairwise distinct records. -/
theorem treeDatums_transformTree_nodup {nodes : List OrgChartDatum}
    (hn : (nodeIds nodes).Nodup) :
    (treeDatums (transformTree nodes)).Nodup := by
  unfold transformTree
  rw [treeDatums_assignTotals, treeDatums_buildRoot, List.nodup_flatMap]
  constructor
  · intro c hcl
    have hcc := mem_rootChildren.mp hcl
    exact treeDatums_buildSubtree_nodup hn nodes.length hcc.1
      (noCycleThrough_of_root hcc.2)
  · have hrootNodup : (rootChildren nodes).Nodup :=
      List.Nodup.filter _ (List.Nodup.of_map OrgChartDatum.id hn)
    refine List.Pairwise.imp_of_mem ?_ hrootNodup
    intro c c' hcl hc'l hne
    intro r hr hr'
    have hcc := mem_rootChildren.mp hcl
    have hcc' := mem_rootChildren.mp hc'l
    obtain ⟨hrn, k, _, h1⟩ := (mem_treeDatums_buildSubtree hn hcc.1).mp hr
    obtain ⟨_, k', _, h2⟩ := (mem_treeDatums_buildSubtree hn hcc'.1).mp hr'
    rcases Nat.lt_trichotomy k k' with h | h | h
    · have hsplit : ancAt nodes k' r = (ancAt nodes k r).bind (ancAt nodes (k' - k)) := by
        rw [← ancAt_add]; congr 1; omega
      rw [h1, Option.some_bind, ancAt_of_root hcc.2 (by omega)] at hsplit
      rw [hsplit] at h2
      cases h2
    · subst h
      rw [h1] at h2
      exact hne (Option.some_inj.mp h2)
    · have hsplit : ancAt nodes k r = (ancAt nodes k' r).bind (ancAt nodes (k - k')) := by
        rw [← ancAt_add]; congr 1; omega
      rw [h2, Option.some_bind, ancAt_of_root hcc'.2 (by omega)] at hsplit
      rw [hsplit] at h1
      cases h1

/-! ### Decidable equality of chart nodes -/

mutual
def beqChartNode : ChartNode → ChartNode → Bool
  | .mk i p cs c, .mk i' p' cs' c' =>
    i == i' && p == p' && beqChartNodeList cs cs' && c == c'

def beqChartNodeList : List ChartNode → List ChartNode → Bool
  | [], [] => true
  | x :: xs, y :: ys => beqChartNode x y && beqChartNodeList xs ys
  | [], _ :: _ => false
  | _ :: _, [] => false
end

mutual
theorem beqChartNode_iff : ∀ (t u : ChartNode), beqChartNode t u = true ↔ t = u
  | .mk i p cs c, .mk i' p' cs' c' => by
    simp only [beqChartNode, Bool.and_eq_true, beq_iff_eq]
    rw [beqChartNodeList_iff cs cs']
    constructor
    · rintro ⟨⟨⟨rfl, rfl⟩, rfl⟩, rfl⟩
      rfl
    · intro h
      injection h with h1 h2 h3 h4
      subst h1; subst h2; subst h3; subst h4
      exact ⟨⟨⟨rfl, rfl⟩, rfl⟩, rfl⟩

theorem beqChartNodeList_iff :
    ∀ (xs ys : List ChartNode), beqChartNodeList xs ys = true ↔ xs = ys
  | [], [] => by simp [beqChartNodeList]
  | [], _ :: _ => by simp [beqChartNodeList]
  | _ :: _, [] => by simp [beqChartNodeList]
  | x :: xs, y :: ys => by
    simp only [beqChartNodeList, Bool.and_eq_true]
    rw [beqChartNode_iff x y, beqChartNodeList_iff xs ys]
    constructor
    · rintro ⟨rfl, rfl⟩
      rfl
    · intro h
      injection h with h1 h2
      exact ⟨h1, h2⟩
end

instance : DecidableEq ChartNode := fun t u =>
  decidable_of_iff (beqChartNode t u = true) (beqChartNode_iff t u)

/-! ### The guarded ancestor walks -/

theorem id_inj_of_nodup {nodes : List OrgChartDatum}
    (hn : (nodeIds nodes).Nodup) {a b : OrgChartDatum} (ha : a ∈ nodes)
    (hb : b ∈ nodes) (hid : a.id = b.id) : a = b := by
  have h1 := lookupById_self hn ha
  have h2 := lookupById_self hn hb
  rw [hid] at h1
  rw [h1] at h2
  exact Option.some_inj.mp h2

theorem nextNode_mem {nodes : List OrgChartDatum} {d e : OrgChartDatum}
    (h : nextNode nodes d = some e) : e ∈ nodes := by
  unfold nextNode at h
  rcases hp : d.parentId with _ | p
  · rw [hp] at h; cases h
  · rw [hp] at h
    have h' : (if p = "" then none else lookupById nodes p) = some e := h
    by_cases hpe : p = ""
    · rw [if_pos hpe] at h'; cases h'
    · rw [if_neg hpe] at h'
      exact (lookupById_eq_some h').1

theorem nextNode_of_parentDatum {nodes : List OrgChartDatum}
    {d e : OrgChartDatum} (h : parentDatum nodes d = some e) :
    nextNode nodes d = some e := by
  obtain ⟨hatt, hlook⟩ := parentDatum_eq_iff_attached.mp h
  obtain ⟨hpid, hne, _, _⟩ := attachedParent_eq_some_iff.mp hatt
  unfold nextNode
  rw [hpid]
  show (if e.id = "" then none else lookupById nodes e.id) = some e
  rw [if_neg hne]
  exact hlook

theorem length_filter_le_of_imp {α : Type} (l : List α) (p q : α → Bool)
    (h : ∀ a, p a = true → q a = true) :
    (l.filter p).length ≤ (l.filter q).length := by
  induction l with
  | nil => exact Nat.le_refl 0
  | cons a l ih =>
    simp only [List.filter]
    rcases hpa : p a with _ | _
    · rcases q a with _ | _
      · exact ih
      · exact Nat.le_succ_of_le ih
    · rw [h a hpa]
      simpa using ih

theorem length_filter_lt {α : Type} (l : List α) (p q : α → Bool)
    (h : ∀ a, p a = true → q a = true) {x : α} (hx : x ∈ l)
    (hpx : p x = false) (hqx : q x = true) :
    (l.filter p).length < (l.filter q).length := by
  induction l with
  | nil => cases hx
  | cons a l ih =>
    rcases List.mem_cons.mp hx with rfl | hxl
    · simp only [List.filter, hpx, hqx]
      have := length_filter_le_of_imp l p q h
      simpa using Nat.lt_succ_of_le this
    · simp only [List.filter]
      rcases hpa : p a with _ | _
      · rcases q a with _ | _
        · exact ih hxl
        · exact Nat.lt_succ_of_lt (ih hxl)
      · rw [h a hpa]
        simpa using ih hxl

/-- The unvisited-id count: the walk strictly shrinks it each step. -/
def walkMeasure (nodes : List OrgChartDatum) (visited : List String) : Nat :=
  ((nodeIds nodes).dedup.filter (fun y => decide (y ∉ visited))).length

/-- The walk result does not depend on the fuel once the fuel exceeds
the unvisited-id count: the loop always exits before exhausting it. -/
theorem getPathToRootAux_stable {nodes : List OrgChartDatum} :
    ∀ (f f' : Nat) (visited : List String) (cur : Option OrgChartDatum),
      (∀ d, cur = some d → d ∈ nodes) →
      walkMeasure nodes visited < f → walkMeasure nodes visited < f' →
      getPathToRootAux nodes f visited cur = getPathToRootAux nodes f' visited cur := by
  intro f
  induction f with
  | zero => intro f' vis cur _ hf _; omega
  | succ f ih =>
    intro f' vis cur hcur hf hf'
    cases f' with
    | zero => omega
    | succ f' =>
      rcases cur with _ | d
      · rfl
      · simp only [getPathToRootAux]
        by_cases hv : d.id ∈ vis
        · rw [if_pos hv, if_pos hv]
        · rw [if_neg hv, if_neg hv]
          congr 1
          have hdm : d ∈ nodes := hcur d rfl
          have hlt : walkMeasure nodes (d.id :: vis) < walkMeasure nodes vis := by
            apply length_filter_lt
            · intro a ha
              simp only [decide_eq_true_eq] at ha ⊢
              intro hmem
              exact ha (List.mem_cons_of_mem _ hmem)
            · exact List.mem_dedup.mpr (List.mem_map_of_mem OrgChartDatum.id hdm)
            · simp
            · simp [hv]
          exact ih f' (d.id :: vis) (nextNode nodes d)
            (fun e he => nextNode_mem he) (by omega) (by omega)

theorem walkMeasure_le_length (nodes : List OrgChartDatum)
    (visited : List String) : walkMeasure nodes visited ≤ nodes.length := by
  calc walkMeasure nodes visited
      ≤ (nodeIds nodes).dedup.length := List.length_filter_le _ _
    _ ≤ (nodeIds nodes).length := (List.dedup_sublist _).length_le
    _ = nodes.length := List.length_map nodes OrgChartDatum.id

/-- The path never repeats an id and avoids the incoming visited set. -/
theorem getPathToRootAux_nodup {nodes : List OrgChartDatum} :
    ∀ (f : Nat) (visited : List String) (cur : Option OrgChartDatum),
      (getPathToRootAux nodes f visited cur).Nodup ∧
        ∀ y ∈ getPathToRootAux nodes f visited cur, y ∉ visited := by
  intro f
  induction f with
  | zero => intro vis cur; simp [getPathToRootAux]
  | succ f ih =>
    intro vis cur
    rcases cur with _ | d
    · simp [getPathToRootAux]
    · simp only [getPathToRootAux]
      by_cases hv : d.id ∈ vis
      · rw [if_pos hv]; simp
      · rw [if_neg hv]
        obtain ⟨hnodup, hdisj⟩ := ih (d.id :: vis) (nextNode nodes d)
        refine ⟨List.nodup_cons.mpr ⟨?_, hnodup⟩, ?_⟩
        · intro hmem
          exact hdisj d.id hmem (List.mem_cons_self d.id vis)
        · intro y hy
          rcases List.mem_cons.mp hy with rfl | hy'
          · exact hv
          · intro hyv
            exact hdisj y hy' (List.mem_cons_of_mem _ hyv)

/-- Every id on the path is a record id. -/
theorem getPathToRootAux_subset {nodes : List OrgChartDatum} :
    ∀ (f : Nat) (visited : List String) (cur : Option OrgChartDatum),
      (∀ d, cur = some d → d ∈ nodes) →
      ∀ y ∈ getPathToRootAux nodes f visited cur, ∃ e ∈ nodes, e.id = y := by
  intro f
  induction f with
  | zero => intro vis cur _ y hy; simp [getPathToRootAux] at hy
  | succ f ih =>
    intro vis cur hcur y hy
    rcases cur with _ | d
    · simp [getPathToRootAux] at hy
    · simp only [getPathToRootAux] at hy
      by_cases hv : d.id ∈ vis
      · rw [if_pos hv] at hy; cases hy
      · rw [if_neg hv] at hy
        rcases List.mem_cons.mp hy with rfl | hy'
        · exact ⟨d, hcur d rfl, rfl⟩
        · exact ih (d.id :: vis) (nextNode nodes d)
            (fun e he => nextNode_mem he) y hy'

/-- The delete-as-you-walk loop is the set difference with the walked
path. -/
theorem ensureNodeVisibleAux_eq_sdiff {nodes : List OrgChartDatum} :
    ∀ (f : Nat) (visited : List String) (cur : Option OrgChartDatum)
      (S : Finset String),
      ensureNodeVisibleAux nodes f visited cur S =
        S \ (getPathToRootAux nodes f visited cur).toFinset := by
  intro f
  induction f with
  | zero => intro vis cur S; simp [ensureNodeVisibleAux, getPathToRootAux]
  | succ f ih =>
    intro vis cur S
    rcases cur with _ | d
    · simp [ensureNodeVisibleAux, getPathToRootAux]
    · simp only [ensureNodeVisibleAux, getPathToRootAux]
      by_cases hv : d.id ∈ vis
      · rw [if_pos hv, if_pos hv]; simp
      · rw [if_neg hv, if_neg hv, ih]
        ext a
        simp only [Finset.mem_sdiff, Finset.mem_erase, List.toFinset_cons,
          Finset.mem_insert, List.mem_toFinset]
        tauto

/-- `ensureNodeVisible` removes exactly the ids on `getPathToRoot`. -/
theorem ensureNodeVisible_eq_sdiff (nodes : List OrgChartDatum)
    (S : Finset String) (nodeId : String) :
    ensureNodeVisible nodes S nodeId =
      S \ (getPathToRoot nodes nodeId).toFinset := by
  unfold ensureNodeVisible getPathToRoot
  exact ensureNodeVisibleAux_eq_sdiff (nodes.length + 1) [] (lookupById nodes nodeId) S

theorem path_covers_ancestors_aux {nodes : List OrgChartDatum}
    (hn : (nodeIds nodes).Nodup) {d c : OrgChartDatum} {K : Nat}
    (hd : d ∈ nodes) (hanc : ancAt nodes K d = some c)
    (hroot : attachedParent nodes c = none) :
    ∀ (m i : Nat) (ai : OrgChartDatum), i + m = K →
      ancAt nodes i d = some ai →
      ∀ (vis : List String) (f : Nat), m < f →
      (∀ t a, i ≤ t → t ≤ K → ancAt nodes t d = some a → a.id ∉ vis) →
      ∀ (j : Nat) (aj : OrgChartDatum), i ≤ j → j ≤ K →
        ancAt nodes j d = some aj →
        aj.id ∈ getPathToRootAux nodes f vis (some ai) := by
  intro m
  induction m with
  | zero =>
    intro i ai hiK hai vis f hf hvis j aj hij hjK haj
    have hj : j = i := by omega
    subst hj
    rw [hai] at haj
    obtain rfl := Option.some_inj.mp haj
    cases f with
    | zero => omega
    | succ f =>
      have haiv : ai.id ∉ vis := hvis j ai (Nat.le_refl j) (by omega) hai
      simp only [getPathToRootAux]
      rw [if_neg haiv]
      exact List.mem_cons_self _ _
  | succ m ih =>
    intro i ai hiK hai vis f hf hvis j aj hij hjK haj
    cases f with
    | zero => omega
    | succ f =>
      have haiv : ai.id ∉ vis := hvis i ai (Nat.le_refl i) (by omega) hai
      simp only [getPathToRootAux]
      rw [if_neg haiv]
      by_cases hji : j = i
      · subst hji
        rw [hai] at haj
        obtain rfl := Option.some_inj.mp haj
        exact List.mem_cons_self _ _
      · have hsome : (ancAt nodes (i + 1) d).isSome = true :=
          ancAt_isSome_of_le (by omega) hanc
        obtain ⟨ai1, hai1⟩ : ∃ x, ancAt nodes (i + 1) d = some x := by
          rcases h : ancAt nodes (i + 1) d with _ | x
          · rw [h] at hsome; cases hsome
          · exact ⟨x, rfl⟩
        have hpd : parentDatum nodes ai = some ai1 := by
          have htop := ancAt_succ_top nodes i d
          rw [hai, Option.some_bind, hai1] at htop
          exact htop.symm
        rw [nextNode_of_parentDatum hpd]
        apply List.mem_cons_of_mem
        refine ih (i + 1) ai1 (by omega) hai1 (ai.id :: vis) f (by omega)
          ?_ j aj (by omega) hjK haj
        intro t a hit htK hta
        have hanv : a.id ∉ vis := hvis t a (by omega) htK hta
        have hne : a.id ≠ ai.id := by
          intro hEq
          have hopt : ancAt nodes i d ≠ ancAt nodes t d :=
            ancAt_inj_of_rooted hroot hanc (by omega) htK
          apply hopt
          rw [hai, hta]
          have : a = ai := id_inj_of_nodup hn (ancAt_mem hd hta)
            (ancAt_mem hd hai) hEq
          rw [this]
        simp only [List.mem_cons]
        rintro (h | h)
        · exact hne h
        · exact hanv h

/-- The guarded walk of `getPathToRoot` visits every attachment ancestor
of a record whose chain reaches a root-attached record. -/
theorem getPathToRoot_covers_ancestors {nodes : List OrgChartDatum}
    (hn : (nodeIds nodes).Nodup) {d c : OrgChartDatum} (hd : d ∈ nodes)
    {K : Nat} (hanc : ancAt nodes K d = some c)
    (hroot : attachedParent nodes c = none) :
    ∀ j ≤ K, ∀ a, ancAt nodes j d = some a →
      a.id ∈ getPathToRoot nodes d.id := by
  intro j hj a ha
  unfold getPathToRoot
  rw [lookupById_self hn hd]
  have hKlt : K < nodes.length := rooted_depth_lt_length hd hroot hanc
  exact path_covers_ancestors_aux hn hd hanc hroot K 0 d (by omega) rfl []
    (nodes.length + 1) (by omega) (by intro t a _ _ _; exact List.not_mem_nil _)
    j a (by omega) hj ha

/-! ### The visible-tree projection -/

@[simp] theorem id_cloneNode (S : Finset String) (t : ChartNode) :
    (cloneNode S t).id = t.id := by
  cases t; rw [cloneNode_def]; rfl

@[simp] theorem payload_cloneNode (S : Finset String) (t : ChartNode) :
    (cloneNode S t).payload = t.payload := by
  cases t; rw [cloneNode_def]; rfl

@[simp] theorem totalChildCount_cloneNode (S : Finset String) (t : ChartNode) :
    (cloneNode S t).totalChildCount = t.totalChildCount := by
  cases t; rw [cloneNode_def]; rfl

theorem children_cloneNode_of_collapsed {S : Finset String} {t : ChartNode}
    (h : isCollapsedPayload S t.payload = true) :
    (cloneNode S t).children = [] := by
  cases t with
  | mk i p cs c =>
    rw [cloneNode_def, ChartNode.children_mk, if_pos]
    exact h

mutual
/-- Every node of the visible copy is the clone of a full-tree node. -/
theorem exists_orig_of_mem_subnodes_clone :
    ∀ (S : Finset String) (t m : ChartNode), m ∈ subnodes (cloneNode S t) →
      ∃ n, n ∈ subnodes t ∧ m = cloneNode S n
  | S, .mk i p cs c, m => by
    intro hm
    rw [cloneNode] at hm
    simp only [subnodes] at hm
    rcases List.mem_cons.mp hm with rfl | htail
    · refine ⟨.mk i p cs c, ?_, ?_⟩
      · simp only [subnodes]
        exact List.mem_cons_self _ _
      · rw [cloneNode]
    · by_cases hcol : isCollapsedPayload S p = true
      · rw [if_pos hcol] at htail
        simp only [subnodesList] at htail
        cases htail
      · rw [if_neg hcol] at htail
        obtain ⟨n, hmem, heq⟩ :=
          exists_orig_of_mem_subnodesList_clone S cs m htail
        refine ⟨n, ?_, heq⟩
        simp only [subnodes]
        exact List.mem_cons_of_mem _ hmem

theorem exists_orig_of_mem_subnodesList_clone :
    ∀ (S : Finset String) (cs : List ChartNode) (m : ChartNode),
      m ∈ subnodesList (cloneNodeList S cs) →
      ∃ n, n ∈ subnodesList cs ∧ m = cloneNode S n
  | S, [], m => by
    intro hm
    simp only [cloneNodeList, subnodesList] at hm
    cases hm
  | S, c :: cs, m => by
    intro hm
    simp only [cloneNodeList, subnodesList] at hm
    rcases List.mem_append.mp hm with h | h
    · obtain ⟨n, hmem, heq⟩ := exists_orig_of_mem_subnodes_clone S c m h
      refine ⟨n, ?_, heq⟩
      simp only [subnodesList]
      exact List.mem_append_left _ hmem
    · obtain ⟨n, hmem, heq⟩ := exists_orig_of_mem_subnodesList_clone S cs m h
      refine ⟨n, ?_, heq⟩
      simp only [subnodesList]
      exact List.mem_append_right _ hmem
end

mutual
/-- After `assignTotals`, every node caches its literal child count. -/
theorem totals_eq_children_length :
    ∀ (t m : ChartNode), m ∈ subnodes (assignTotals t) →
      m.totalChildCount = m.children.length
  | .mk i p cs c, m => by
    intro hm
    rw [assignTotals] at hm
    simp only [subnodes] at hm
    rcases List.mem_cons.mp hm with rfl | htail
    · simp only [ChartNode.totalChildCount_mk, ChartNode.children_mk]
      rw [assignTotalsList_eq_map, List.length_map]
    · exact totals_eq_children_length_list cs m htail

theorem totals_eq_children_length_list :
    ∀ (cs : List ChartNode) (m : ChartNode),
      m ∈ subnodesList (assignTotalsList cs) →
      m.totalChildCount = m.children.length
  | [], m => by
    intro hm
    simp only [assignTotalsList, subnodesList] at hm
    cases hm
  | c :: cs, m => by
    intro hm
    simp only [assignTotalsList, subnodesList] at hm
    rcases List.mem_append.mp hm with h | h
    · exact totals_eq_children_length c m h
    · exact totals_eq_children_length_list cs m h
end

theorem assignTotals_buildSubtree_zero (nodes : List OrgChartDatum)
    (d : OrgChartDatum) :
    assignTotals (buildSubtree nodes 0 d) = .mk d.id (some d) [] 0 := by
  show assignTotals (.mk d.id (some d) [] 0) = _
  rw [assignTotals_def]
  simp

theorem assignTotals_buildSubtree_succ (nodes : List OrgChartDatum) (f : Nat)
    (d : OrgChartDatum) :
    assignTotals (buildSubtree nodes (f + 1) d) =
      .mk d.id (some d)
        ((childrenOf nodes d.id).map
          (fun c => assignTotals (buildSubtree nodes f c)))
        (childrenOf nodes d.id).length := by
  show assignTotals (.mk d.id (some d)
    ((childrenOf nodes d.id).map (buildSubtree nodes f)) 0) = _
  rw [assignTotals_def]
  simp [List.map_map, Function.comp]

/-- Membership in a cloned subtree: the record hangs below `d` and no
proper ancestor on the way up to and including `d` is collapsed. -/
theorem mem_treeDatums_cloneVisible {nodes : List OrgChartDatum}
    (hn : (nodeIds nodes).Nodup) {S : Finset String} :
    ∀ (f : Nat) {d r : OrgChartDatum}, d ∈ nodes →
      (r ∈ treeDatums (cloneNode S (assignTotals (buildSubtree nodes f d))) ↔
        r ∈ nodes ∧ ∃ k ≤ f, ancAt nodes k r = some d ∧
          ∀ j a, 1 ≤ j → j ≤ k → ancAt nodes j r = some a →
            isCollapsedPayload S (some a) = false) := by
  intro f
  induction f with
  | zero =>
    intro d r hd
    have heq : cloneNode S (assignTotals (buildSubtree nodes 0 d))
        = .mk d.id (some d) [] 0 := by
      rw [assignTotals_buildSubtree_zero, cloneNode_def]
      simp
    rw [heq, treeDatums_def]
    show r ∈ [d] ↔ _
    constructor
    · intro h
      rw [List.mem_singleton] at h
      subst h
      exact ⟨hd, 0, Nat.le_refl 0, rfl, by intro j a hj hk _; omega⟩
    · rintro ⟨hr, k, hk, hanc, _⟩
      have hk0 : k = 0 := by omega
      subst hk0
      simp only [ancAt, Option.some_inj] at hanc
      simp [hanc]
  | succ f ih =>
    intro d r hd
    by_cases hcol : isCollapsedPayload S (some d) = true
    · have heq : cloneNode S (assignTotals (buildSubtree nodes (f + 1) d))
          = .mk d.id (some d) [] (childrenOf nodes d.id).length := by
        rw [assignTotals_buildSubtree_succ, cloneNode_def, if_pos]
        exact hcol
      rw [heq, treeDatums_def]
      show r ∈ [d] ↔ _
      constructor
      · intro h
        rw [List.mem_singleton] at h
        subst h
        exact ⟨hd, 0, by omega, rfl, by intro j a hj hk _; omega⟩
      · rintro ⟨hr, k, hk, hanc, hbl⟩
        cases k with
        | zero =>
          simp only [ancAt, Option.some_inj] at hanc
          simp [hanc]
        | succ k =>
          have := hbl (k + 1) d (by omega) (Nat.le_refl _) hanc
          rw [hcol] at this
          cases this
    · have heq : cloneNode S (assignTotals (buildSubtree nodes (f + 1) d))
          = .mk d.id (some d)
              ((childrenOf nodes d.id).map
                (fun c => cloneNode S (assignTotals (buildSubtree nodes f c))))
              (childrenOf nodes d.id).length := by
        rw [assignTotals_buildSubtree_succ, cloneNode_def, if_neg hcol]
        simp [List.map_map, Function.comp]
      rw [heq, treeDatums_def]
      show r ∈ d :: ((childrenOf nodes d.id).map
        (fun c => cloneNode S (assignTotals (buildSubtree nodes f c)))).flatMap
          treeDatums ↔ _
      rw [List.flatMap_map]
      simp only [List.mem_cons, List.mem_flatMap]
      constructor
      · rintro (rfl | ⟨c, hcl, hrsub⟩)
        · exact ⟨hd, 0, by omega, rfl, by intro j a hj hk _; omega⟩
        · have hcc := mem_childrenOf.mp hcl
          obtain ⟨hr, k, hkf, hanc, hbl⟩ := (ih hcc.1).mp hrsub
          have htop : ancAt nodes (k + 1) r = some d := by
            rw [ancAt_succ_top, hanc, Option.some_bind]
            exact parentDatum_of_child hn hd hcc.2
          refine ⟨hr, k + 1, by omega, htop, ?_⟩
          intro j a hj hk' ha
          by_cases hjk : j ≤ k
          · exact hbl j a hj hjk ha
          · have hj' : j = k + 1 := by omega
            subst hj'
            rw [htop] at ha
            obtain rfl := Option.some_inj.mp ha
            simpa using hcol
      · rintro ⟨hr, k, hk, hanc, hbl⟩
        cases k with
        | zero =>
          simp only [ancAt, Option.some_inj] at hanc
          exact Or.inl hanc
        | succ k =>
          rw [ancAt_succ_top] at hanc
          obtain ⟨c, hkc, hpc⟩ := Option.bind_eq_some.mp hanc
          have h2 := parentDatum_eq_iff_attached.mp hpc
          have hcmem : c ∈ nodes := ancAt_mem hr hkc
          refine Or.inr ⟨c, mem_childrenOf.mpr ⟨hcmem, h2.1⟩, ?_⟩
          refine (ih hcmem).mpr ⟨hr, k, by omega, hkc, ?_⟩
          intro j a hj hk' ha
          exact hbl j a hj (by omega) ha

/-- Membership in the full visible tree `buildVisibleTree`: the record
must be rooted and no ancestor on its chain (itself excluded) may be
collapsed. -/
theorem mem_treeDatums_visibleTree {nodes : List OrgChartDatum}
    (hn : (nodeIds nodes).Nodup) {S : Finset String} {r : OrgChartDatum} :
    r ∈ treeDatums (cloneNode S (transformTree nodes)) ↔
      r ∈ nodes ∧ ∃ k c, ancAt nodes k r = some c ∧
        attachedParent nodes c = none ∧
        ∀ j a, 1 ≤ j → j ≤ k → ancAt nodes j r = some a →
          isCollapsedPayload S (some a) = false := by
  have hroot : cloneNode S (transformTree nodes)
      = .mk virtualRootId none
          ((rootChildren nodes).map
            (fun c => cloneNode S (assignTotals (buildSubtree nodes nodes.length c))))
          (rootChildren nodes).length := by
    unfold transformTree buildRoot
    rw [assignTotals_def, cloneNode_def]
    have hnone : isCollapsedPayload S none = false := rfl
    rw [if_neg (by rw [hnone]; exact Bool.false_ne_true)]
    simp [List.map_map, Function.comp]
  rw [hroot, treeDatums_def]
  show r ∈ ((rootChildren nodes).map
    (fun c => cloneNode S (assignTotals (buildSubtree nodes nodes.length c)))).flatMap
      treeDatums ↔ _
  rw [List.flatMap_map]
  simp only [List.mem_flatMap]
  constructor
  · rintro ⟨c, hcl, hrsub⟩
    have hcc := mem_rootChildren.mp hcl
    obtain ⟨hr, k, _, hanc, hbl⟩ := (mem_treeDatums_cloneVisible hn _ hcc.1).mp hrsub
    exact ⟨hr, k, c, hanc, hcc.2, hbl⟩
  · rintro ⟨hr, k, c, hanc, hcroot, hbl⟩
    have hcmem : c ∈ nodes := ancAt_mem hr hanc
    have hklt : k < nodes.length := rooted_depth_lt_length hr hcroot hanc
    exact ⟨c, mem_rootChildren.mpr ⟨hcmem, hcroot⟩,
      (mem_treeDatums_cloneVisible hn _ hcmem).mpr ⟨hr, k, by omega, hanc, hbl⟩⟩

/-! ### Expand and toggle -/

theorem mem_foldl_insert (l : List OrgChartDatum) (S : Finset String)
    (x : String) :
    x ∈ l.foldl (fun s c => insert c.id s) S ↔
      x ∈ S ∨ ∃ c ∈ l, c.id = x := by
  induction l generalizing S with
  | nil => simp
  | cons c l ih =>
    simp only [List.foldl_cons, ih, Finset.mem_insert, List.mem_cons]
    constructor
    · rintro ((rfl | h) | ⟨e, he, rfl⟩)
      · exact Or.inr ⟨c, Or.inl rfl, rfl⟩
      · exact Or.inl h
      · exact Or.inr ⟨e, Or.inr he, rfl⟩
    · rintro (h | ⟨e, (rfl | he), rfl⟩)
      · exact Or.inl (Or.inr h)
      · exact Or.inl (Or.inl rfl)
      · exact Or.inr ⟨e, he, rfl⟩

theorem mem_expandOneLevel {nodes : List OrgChartDatum} {nodeId : String}
    {d : OrgChartDatum} (hlook : lookupById nodes nodeId = some d)
    (S : Finset String) (x : String) :
    x ∈ expandOneLevel nodes S nodeId ↔
      (x ∈ S ∧ x ≠ nodeId) ∨ ∃ c ∈ childrenOf nodes d.id, c.id = x := by
  unfold expandOneLevel
  rw [hlook]
  show x ∈ (childrenOf nodes d.id).foldl (fun s c => insert c.id s)
    (S.erase nodeId) ↔ _
  rw [mem_foldl_insert, Finset.mem_erase]
  tauto

/-- Every subnode of a built subtree is itself a built subtree of a
record hanging at some depth below the original root, with fuel reduced
by that depth. -/
theorem subnodes_shape {nodes : List OrgChartDatum}
    (hn : (nodeIds nodes).Nodup) :
    ∀ (f : Nat) {d : OrgChartDatum}, d ∈ nodes →
      ∀ m ∈ subnodes (assignTotals (buildSubtree nodes f d)),
        ∃ j r, j ≤ f ∧ r ∈ nodes ∧ ancAt nodes j r = some d ∧
          m = assignTotals (buildSubtree nodes (f - j) r) := by
  intro f
  induction f with
  | zero =>
    intro d hd m hm
    rw [assignTotals_buildSubtree_zero] at hm
    simp only [subnodes, subnodesList] at hm
    rcases List.mem_cons.mp hm with rfl | h
    · refine ⟨0, d, Nat.le_refl 0, hd, rfl, ?_⟩
      rw [assignTotals_buildSubtree_zero]
    · cases h
  | succ f ih =>
    intro d hd m hm
    rw [assignTotals_buildSubtree_succ] at hm
    simp only [subnodes] at hm
    rcases List.mem_cons.mp hm with rfl | h
    · refine ⟨0, d, by omega, hd, rfl, ?_⟩
      rw [Nat.sub_zero, assignTotals_buildSubtree_succ]
    · rw [subnodesList_eq_flatMap, List.mem_flatMap] at h
      obtain ⟨t, ht, hmt⟩ := h
      rw [List.mem_map] at ht
      obtain ⟨c, hcl, rfl⟩ := ht
      have hcc := mem_childrenOf.mp hcl
      obtain ⟨j, r, hj, hr, hanc, heq⟩ := ih hcc.1 m hmt
      refine ⟨j + 1, r, by omega, hr, ?_, ?_⟩
      · rw [ancAt_succ_top, hanc, Option.some_bind]
        exact parentDatum_of_child hn hd hcc.2
      · rw [show f + 1 - (j + 1) = f - j by omega]
        exact heq

/-- Every payload-bearing subnode of the full tree is the built subtree
of its record, with at least one unit of fuel left. -/
theorem subnode_payload_shape {nodes : List OrgChartDatum}
    (hn : (nodeIds nodes).Nodup) {m : ChartNode}
    (hm : m ∈ subnodes (transformTree nodes)) {r : OrgChartDatum}
    (hp : m.payload = some r) :
    ∃ fu, 1 ≤ fu ∧ fu ≤ nodes.length ∧
      m = assignTotals (buildSubtree nodes fu r) := by
  have hT : transformTree nodes = .mk virtualRootId none
      ((rootChildren nodes).map
        (fun c => assignTotals (buildSubtree nodes nodes.length c)))
      (rootChildren nodes).length := by
    unfold transformTree buildRoot
    rw [assignTotals_def]
    simp [List.map_map, Function.comp]
  rw [hT] at hm
  simp only [subnodes] at hm
  rcases List.mem_cons.mp hm with rfl | h
  · rw [ChartNode.payload_mk] at hp
    cases hp
  · rw [subnodesList_eq_flatMap, List.mem_flatMap] at h
    obtain ⟨t, ht, hmt⟩ := h
    rw [List.mem_map] at ht
    obtain ⟨c, hcl, rfl⟩ := ht
    have hcc := mem_rootChildren.mp hcl
    obtain ⟨j, r', hj, hr', hanc, heq⟩ := subnodes_shape hn nodes.length hcc.1 m hmt
    have hr'r : r' = r := by
      rw [heq, payload_assignTotals, payload_buildSubtree] at hp
      exact Option.some_inj.mp hp
    subst hr'r
    have hjlt : j < nodes.length := rooted_depth_lt_length hr' hcc.2 hanc
    exact ⟨nodes.length - j, by omega, by omega, heq⟩

/-- Depth-stratified membership in the full tree: the records at depth
`k + 1` (synthetic root at depth 0) are the ones rooted at distance `k`. -/
theorem mem_datumsAtDepth_transformTree {nodes : List OrgChartDatum}
    (hn : (nodeIds nodes).Nodup) (k : Nat) (r : OrgChartDatum) :
    r ∈ datumsAtDepth (transformTree nodes) (k + 1) ↔
      r ∈ nodes ∧ rootedAt nodes r k := by
  have hchildren : (transformTree nodes).children =
      ((rootChildren nodes).map (buildSubtree nodes nodes.length)).map
        assignTotals := by
    unfold transformTree buildRoot
    rw [children_assignTotals, ChartNode.children_mk]
  have h1 : datumsAtDepth (transformTree nodes) (k + 1)
      = datumsAtDepthList k
          ((rootChildren nodes).map (buildSubtree nodes nodes.length)) := by
    unfold datumsAtDepth
    simp only [datumsAtDepthList, List.flatMap_cons, List.flatMap_nil,
      List.append_nil]
    rw [hchildren, datumsAtDepthList_assignTotals]
  rw [h1, mem_datumsAtDepthList_build hn k nodes.length (rootChildren nodes) r
    (fun c hc => (mem_rootChildren.mp hc).1)]
  constructor
  · rintro ⟨hr, _, c, hcl, hanc⟩
    exact ⟨hr, c, hanc, (mem_rootChildren.mp hcl).2⟩
  · rintro ⟨hr, c, hanc, hcroot⟩
    have : k < nodes.length := rooted_depth_lt_length hr hcroot hanc
    exact ⟨hr, by omega, c,
      mem_rootChildren.mpr ⟨ancAt_mem hr hanc, hcroot⟩, hanc⟩

/-! ### The normalizer failure conditions -/

theorem normalizeRow_eq_none_iff (columns : List RoleColumn) (row : RawRow) :
    normalizeRow (roleIndex columns "employeeId")
      (roleIndex columns "managerId") (roleIndex columns "displayName") row
        = none ↔
      hasValidEmployeeId columns row = false := by
  unfold normalizeRow hasValidEmployeeId
  rcases roleIndex columns "employeeId" with _ | ei
  · simp
  · simp only
    rcases toKey (getCell row ei) with _ | eid
    · simp
    · by_cases h : eid = ""
      · simp [h]
      · simp [h]

theorem normalizeRows_eq_nil_iff (columns : List RoleColumn)
    (rows : List RawRow) :
    normalizeRows columns rows = [] ↔
      ∀ r ∈ rows, hasValidEmployeeId columns r = false := by
  unfold normalizeRows
  rw [List.filterMap_eq_nil_iff]
  constructor <;> intro h r hr
  · exact (normalizeRow_eq_none_iff columns r).mp (h r hr)
  · exact (normalizeRow_eq_none_iff columns r).mpr (h r hr)

/-! ### Concrete datasets

The running example of the spec (testable-properties section): records
A, B under A, C under B, and D pointing at the absent id Z; a two-record
reference cycle A and B pointing at each other; and a three-record
chain for the default-collapse example. -/

def exA : OrgChartDatum := ⟨"A", none, "Alice"⟩

def exB : OrgChartDatum := ⟨"B", some "A", "Bob"⟩

def exC : OrgChartDatum := ⟨"C", some "B", "Carol"⟩

def exD : OrgChartDatum := ⟨"D", some "Z", "Dan"⟩

def exampleNodes : List OrgChartDatum := [exA, exB, exC, exD]

def chainNodes : List OrgChartDatum := [exA, exB, exC]

def cycA : OrgChartDatum := ⟨"A", some "B", "Alice"⟩

def cycB : OrgChartDatum := ⟨"B", some "A", "Bob"⟩

def cycleNodes : List OrgChartDatum := [cycA, cycB]

def cexBounds : LayoutBounds := ⟨0, 80, 0, 80, 60⟩

def exColumns : List RoleColumn :=
  [⟨"Employee", ["employeeId"]⟩, ⟨"Manager", ["managerId"]⟩]

def exColumnsNoManager : List RoleColumn := [⟨"Employee", ["employeeId"]⟩]

def exRows : List RawRow := [⟨[some "A", none]⟩, ⟨[some "B", some "A"]⟩]

/-! ## Claim theorems -/

/-- C1 (counterexample): on the two-record reference cycle A→B→A (ids
unique and non-empty) the records attach under each other, so neither
is reachable from the synthetic root: record A occurs zero times in the
full tree built by `transform`, not once as claimed. -/
theorem c1_cycle_records_dropped :
    ((nodeIds cycleNodes).Nodup ∧ ∀ d ∈ cycleNodes, d.id ≠ "") ∧
    cycA ∈ cycleNodes ∧
    List.count cycA (treeDatums (transformTree cycleNodes)) = 0 :=
  ⟨⟨by decide, by decide⟩, by decide, by decide⟩

/-- C1 (amended): for every row set with unique, non-empty employee ids
in which the resolvable-parent chain of every record reaches the
synthetic root (that is, no record participates in a multi-node
reference cycle), every normalized record appears exactly once in the
full tree built by `transform`: reachable from the synthetic root, with
no duplicates and no dropped records. -/
theorem c1_transform_tree_complete {nodes : List OrgChartDatum}
    (hn : (nodeIds nodes).Nodup)
    (hacyc : ∀ d ∈ nodes, ∃ k < nodes.length, rootedAt nodes d k) :
    ∀ d ∈ nodes, List.count d (treeDatums (transformTree nodes)) = 1 := by
  intro d hd
  apply List.count_eq_one_of_mem (treeDatums_transformTree_nodup hn)
  obtain ⟨k, _, hk⟩ := hacyc d hd
  exact (mem_treeDatums_transformTree hn).mpr ⟨hd, k, hk⟩

/-- C1 (witness): the example dataset satisfies the hypotheses, and
record B occurs exactly once in its full tree. -/
theorem c1_witness :
    List.count exB (treeDatums (transformTree exampleNodes)) = 1 :=
  c1_transform_tree_complete (by decide) (by decide) exB (by decide)

/-- C2: a record whose `parentId` is absent (null or empty), equal to
its own id, or equal to no record id in the dataset becomes a direct
child of the synthetic root of the tree built by `transform`. -/
theorem c2_orphan_attached_to_root {nodes : List OrgChartDatum}
    (hn : (nodeIds nodes).Nodup) {d : OrgChartDatum} (hd : d ∈ nodes)
    (hcond : d.parentId = none ∨ ∃ p, d.parentId = some p ∧
      (p = "" ∨ p = d.id ∨ ∀ e ∈ nodes, e.id ≠ p)) :
    ∃ c ∈ (transformTree nodes).children, c.payload = some d := by
  have hatt : attachedParent nodes d = none := by
    rcases hcond with h | ⟨p, hp, hcase⟩
    · unfold attachedParent
      rw [h]
    · unfold attachedParent
      rw [hp]
      show (if p ≠ "" ∧ p ≠ d.id ∧ (lookupById nodes p).isSome = true
            then some p else none) = none
      rcases hcase with rfl | rfl | hforall
      · simp
      · simp
      · rw [if_neg]
        rintro ⟨_, _, hsome⟩
        obtain ⟨e, he, heid⟩ := lookupById_isSome.mp hsome
        exact hforall e he heid
  have hrc : d ∈ rootChildren nodes := mem_rootChildren.mpr ⟨hd, hatt⟩
  have hchildren : (transformTree nodes).children =
      (rootChildren nodes).map
        (fun c => assignTotals (buildSubtree nodes nodes.length c)) := by
    unfold transformTree buildRoot
    rw [children_assignTotals, ChartNode.children_mk, List.map_map]
    rfl
  refine ⟨assignTotals (buildSubtree nodes nodes.length d), ?_, ?_⟩
  · rw [hchildren]
    exact List.mem_map_of_mem _ hrc
  · rw [payload_assignTotals, payload_buildSubtree]

/-- C2 (witness): record D references the absent id Z and lands as a
direct child of the synthetic root of the example dataset. -/
theorem c2_witness :
    ∃ c ∈ (transformTree exampleNodes).children, c.payload = some exD :=
  c2_orphan_attached_to_root (by decide) (by decide)
    (Or.inr ⟨"Z", rfl, Or.inr (Or.inr (by decide))⟩)

/-- C3 (counterexample): with initial-expanded-levels = 1 on the chain
root(0)/A(1)/B(2)/C(3), the computed default-collapsed set is the
depth-1 set containing A, not the depth-2 set containing B that the
claim describes, so B ends up hidden rather than visible-but-collapsed. -/
theorem c3_counterexample :
    applyDefaultExpandedLevels chainNodes 1 = {"A"} ∧
    ((datumsAtDepth (transformTree chainNodes) 2).map
      OrgChartDatum.id).toFinset = {"B"} ∧
    applyDefaultExpandedLevels chainNodes 1 ≠
      ((datumsAtDepth (transformTree chainNodes) 2).map
        OrgChartDatum.id).toFinset :=
  ⟨by decide, by decide, by decide⟩

/-- C3 (amended): the default expand-N-levels policy collapses exactly
the set of node ids at depth N (synthetic root at depth 0, so the
records whose parent chain has length N - 1), and N = 0 means fully
expanded (empty collapsed set). -/
theorem c3_default_collapse_depth {nodes : List OrgChartDatum}
    (hn : (nodeIds nodes).Nodup) (levels : Nat) :
    (applyDefaultExpandedLevels nodes 0 = ∅) ∧
    (1 ≤ levels → ∀ x, x ∈ applyDefaultExpandedLevels nodes levels ↔
      ∃ d ∈ nodes, d.id = x ∧ rootedAt nodes d (levels - 1)) := by
  constructor
  · rfl
  · intro hlev x
    obtain ⟨k, rfl⟩ : ∃ k, levels = k + 1 := ⟨levels - 1, by omega⟩
    unfold applyDefaultExpandedLevels
    rw [if_neg (by omega)]
    unfold computeDefaultCollapsedSet
    rw [List.mem_toFinset, List.mem_map]
    constructor
    · rintro ⟨r, hr, rfl⟩
      have h := (mem_datumsAtDepth_transformTree hn k r).mp hr
      exact ⟨r, h.1, rfl, h.2⟩
    · rintro ⟨d, hd, rfl, hrooted⟩
      exact ⟨d, (mem_datumsAtDepth_transformTree hn k d).mpr ⟨hd, hrooted⟩, rfl⟩

/-- C3 (witness): on the chain dataset with one expanded level, A (the
record at depth 1) is in the default-collapsed set. -/
theorem c3_witness : "A" ∈ applyDefaultExpandedLevels chainNodes 1 :=
  ((c3_default_collapse_depth (by decide) 1).2 (by decide) "A").mpr (by decide)

/-- C4: every node of the visible tree built by `buildVisibleTree`
corresponds to a full-tree node with the same id, payload and cached
child count; the cached `totalChildCount` equals the literal child
count in the full tree, and a collapsed node keeps the count while its
children list is emptied. -/
theorem c4_totalChildCount_invariant (nodes : List OrgChartDatum)
    (S : Finset String) :
    ∀ m ∈ subnodes (cloneNode S (transformTree nodes)),
      ∃ n ∈ subnodes (transformTree nodes),
        n.id = m.id ∧ n.payload = m.payload ∧
        m.totalChildCount = n.totalChildCount ∧
        n.totalChildCount = n.children.length ∧
        (isCollapsedPayload S m.payload = true → m.children = []) := by
  intro m hm
  obtain ⟨n, hmem, rfl⟩ := exists_orig_of_mem_subnodes_clone S _ m hm
  refine ⟨n, hmem, (id_cloneNode S n).symm, (payload_cloneNode S n).symm,
    totalChildCount_cloneNode S n, ?_, ?_⟩
  · exact totals_eq_children_length (buildRoot nodes nodes.length) n hmem
  · intro hcol
    apply children_cloneNode_of_collapsed
    rw [payload_cloneNode] at hcol
    exact hcol

/-- C4 (witness): instantiated on the example dataset with B collapsed,
at the visible node of record B. -/
theorem c4_witness :
    ∃ n ∈ subnodes (transformTree exampleNodes),
      n.id = (cloneNode {"B"}
        (assignTotals (buildSubtree exampleNodes 3 exB))).id ∧
      n.payload = (cloneNode {"B"}
        (assignTotals (buildSubtree exampleNodes 3 exB))).payload ∧
      (cloneNode {"B"}
        (assignTotals (buildSubtree exampleNodes 3 exB))).totalChildCount
        = n.totalChildCount ∧
      n.totalChildCount = n.children.length ∧
      (isCollapsedPayload {"B"} (cloneNode {"B"}
        (assignTotals (buildSubtree exampleNodes 3 exB))).payload = true →
        (cloneNode {"B"}
          (assignTotals (buildSubtree exampleNodes 3 exB))).children = []) :=
  c4_totalChildCount_invariant exampleNodes {"B"} _ (by decide)

/-- C5 (counterexample): for the two-record reference cycle, record A is
present in the dataset, yet after `ensureVisible` on A the visible tree
still does not contain it: the record is absent from the full tree
altogether, so the round trip fails. -/
theorem c5_counterexample :
    cycA ∈ cycleNodes ∧
    cycA ∉ treeDatums (cloneNode (ensureNodeVisible cycleNodes ∅ "A")
      (transformTree cycleNodes)) :=
  ⟨by decide, by decide⟩

/-- C5 (amended): for every record x whose resolvable-parent chain
reaches the synthetic root, and every prior collapsed-id set,
`ensureVisible(x)` followed by `buildVisibleTree()` yields a visible
tree containing x and every attachment ancestor of x. -/
theorem c5_ensureVisible_roundTrip {nodes : List OrgChartDatum}
    (hn : (nodeIds nodes).Nodup) {d : OrgChartDatum} (hd : d ∈ nodes)
    {K : Nat} {c : OrgChartDatum} (hanc : ancAt nodes K d = some c)
    (hroot : attachedParent nodes c = none) (S : Finset String) :
    ∀ j a, ancAt nodes j d = some a →
      a ∈ treeDatums (cloneNode (ensureNodeVisible nodes S d.id)
        (transformTree nodes)) := by
  intro j a hja
  have hjK : j ≤ K := by
    by_contra hgt
    have hsplit : ancAt nodes j d
        = (ancAt nodes K d).bind (ancAt nodes (j - K)) := by
      rw [← ancAt_add]; congr 1; omega
    rw [hanc, Option.some_bind, ancAt_of_root hroot (by omega)] at hsplit
    rw [hja] at hsplit
    cases hsplit
  have ham : a ∈ nodes := ancAt_mem hd hja
  rw [mem_treeDatums_visibleTree hn]
  refine ⟨ham, K - j, c, ?_, hroot, ?_⟩
  · have hsplit : ancAt nodes K d
        = (ancAt nodes j d).bind (ancAt nodes (K - j)) := by
      rw [← ancAt_add]; congr 1; omega
    rw [hja, Option.some_bind] at hsplit
    rw [← hsplit, hanc]
  · intro t x ht htk hxt
    have hx : ancAt nodes (j + t) d = some x := by
      rw [ancAt_add, hja, Option.some_bind]
      exact hxt
    have hxid : x.id ∈ getPathToRoot nodes d.id :=
      getPathToRoot_covers_ancestors hn hd hanc hroot (j + t) (by omega) x hx
    rw [ensureNodeVisible_eq_sdiff]
    simp only [isCollapsedPayload]
    by_cases hxe : x.id = ""
    · rw [if_pos hxe]
    · rw [if_neg hxe, decide_eq_false_iff_not]
      rintro hmem
      rw [Finset.mem_sdiff] at hmem
      exact hmem.2 (List.mem_toFinset.mpr hxid)

/-- C5 (witness): with B and C collapsed in the example dataset,
`ensureVisible` on C makes C itself appear in the visible tree. -/
theorem c5_witness :
    exC ∈ treeDatums (cloneNode (ensureNodeVisible exampleNodes {"B", "C"} "C")
      (transformTree exampleNodes)) := by
  have h := c5_ensureVisible_roundTrip (by decide)
    (show exC ∈ exampleNodes by decide)
    (show ancAt exampleNodes 2 exC = some exA by decide)
    (show attachedParent exampleNodes exA = none by decide) {"B", "C"}
  exact h 0 exC rfl

/-- C6: collapsing a node n with children and then expanding it one
level (two anchored toggles) marks every direct child of n collapsed,
and in the resulting visible tree the node of record n carries exactly
the direct children of n, each carrying no children of its own: no
grandchild is revealed. -/
theorem c6_collapse_expand_one_level {nodes : List OrgChartDatum}
    (hn : (nodeIds nodes).Nodup) (hne : ∀ e ∈ nodes, e.id ≠ "")
    {n : OrgChartDatum} (hd : n ∈ nodes) (hch : childrenOf nodes n.id ≠ [])
    (S : Finset String) (hS : n.id ∉ S) :
    (∀ c ∈ childrenOf nodes n.id, c.id ∈
      toggleNodeCollapseAnchoredOneLevel nodes
        (toggleNodeCollapseAnchoredOneLevel nodes S n.id) n.id) ∧
    (∀ m ∈ subnodes (cloneNode
        (toggleNodeCollapseAnchoredOneLevel nodes
          (toggleNodeCollapseAnchoredOneLevel nodes S n.id) n.id)
        (transformTree nodes)),
      m.payload = some n →
        m.children.map ChartNode.payload
          = (childrenOf nodes n.id).map some ∧
        ∀ y ∈ m.children, y.children = []) := by
  have hlook : lookupById nodes n.id = some n := lookupById_self hn hd
  have hS1 : toggleNodeCollapseAnchoredOneLevel nodes S n.id
      = insert n.id S := by
    unfold toggleNodeCollapseAnchoredOneLevel
    rw [if_neg hS]
  have hS2 : ∀ x, x ∈ toggleNodeCollapseAnchoredOneLevel nodes
      (toggleNodeCollapseAnchoredOneLevel nodes S n.id) n.id ↔
      (x ∈ S ∧ x ≠ n.id) ∨ ∃ c ∈ childrenOf nodes n.id, c.id = x := by
    intro x
    rw [hS1]
    unfold toggleNodeCollapseAnchoredOneLevel
    rw [if_pos (Finset.mem_insert_self n.id S),
      mem_expandOneLevel hlook]
    constructor
    · rintro (⟨hxS1, hxn⟩ | h)
      · rcases Finset.mem_insert.mp hxS1 with rfl | h2
        · exact absurd rfl hxn
        · exact Or.inl ⟨h2, hxn⟩
      · exact Or.inr h
    · rintro (⟨hxS, hxn⟩ | h)
      · exact Or.inl ⟨Finset.mem_insert_of_mem hxS, hxn⟩
      · exact Or.inr h
  have hchild_mem : ∀ c ∈ childrenOf nodes n.id, c.id ∈
      toggleNodeCollapseAnchoredOneLevel nodes
        (toggleNodeCollapseAnchoredOneLevel nodes S n.id) n.id := by
    intro c hc
    exact (hS2 c.id).mpr (Or.inr ⟨c, hc, rfl⟩)
  have hnid_notin : n.id ∉ toggleNodeCollapseAnchoredOneLevel nodes
      (toggleNodeCollapseAnchoredOneLevel nodes S n.id) n.id := by
    intro hmem
    rcases (hS2 n.id).mp hmem with ⟨_, hne'⟩ | ⟨c, hc, hcid⟩
    · exact hne' rfl
    · exact attachedParent_ne_self (mem_childrenOf.mp hc).2 hcid.symm
  refine ⟨hchild_mem, ?_⟩
  intro m hm hp
  obtain ⟨n', hn'mem, rfl⟩ := exists_orig_of_mem_subnodes_clone _ _ m hm
  rw [payload_cloneNode] at hp
  obtain ⟨fu, hfu1, _, rfl⟩ := subnode_payload_shape hn hn'mem hp
  obtain ⟨fv, rfl⟩ : ∃ fv, fu = fv + 1 := ⟨fu - 1, by omega⟩
  have hncol : isCollapsedPayload (toggleNodeCollapseAnchoredOneLevel nodes
      (toggleNodeCollapseAnchoredOneLevel nodes S n.id) n.id) (some n)
      = false := by
    simp only [isCollapsedPayload]
    rw [if_neg (hne n hd)]
    exact decide_eq_false hnid_notin
  have hchildren_eq : (cloneNode (toggleNodeCollapseAnchoredOneLevel nodes
      (toggleNodeCollapseAnchoredOneLevel nodes S n.id) n.id)
      (assignTotals (buildSubtree nodes (fv + 1) n))).children =
      (childrenOf nodes n.id).map (fun c =>
        cloneNode (toggleNodeCollapseAnchoredOneLevel nodes
          (toggleNodeCollapseAnchoredOneLevel nodes S n.id) n.id)
          (assignTotals (buildSubtree nodes fv c))) := by
    rw [assignTotals_buildSubtree_succ, cloneNode_def, ChartNode.children_mk,
      if_neg (by rw [hncol]; exact Bool.false_ne_true), List.map_map]
    rfl
  rw [hchildren_eq]
  constructor
  · rw [List.map_map]
    apply List.map_congr_left
    intro c _
    simp [Function.comp]
  · intro y hy
    rw [List.mem_map] at hy
    obtain ⟨c, hcl, rfl⟩ := hy
    have hcmem : c ∈ nodes := (mem_childrenOf.mp hcl).1
    apply children_cloneNode_of_collapsed
    rw [payload_assignTotals, payload_buildSubtree]
    simp only [isCollapsedPayload]
    rw [if_neg (hne c hcmem)]
    exact decide_eq_true (hchild_mem c hcl)

/-- C6 (witness): instantiated on record B of the example dataset with
an empty starting collapsed set. -/
theorem c6_witness :
    (∀ c ∈ childrenOf exampleNodes exB.id, c.id ∈
      toggleNodeCollapseAnchoredOneLevel exampleNodes
        (toggleNodeCollapseAnchoredOneLevel exampleNodes ∅ exB.id) exB.id) ∧
    (∀ m ∈ subnodes (cloneNode
        (toggleNodeCollapseAnchoredOneLevel exampleNodes
          (toggleNodeCollapseAnchoredOneLevel exampleNodes ∅ exB.id) exB.id)
        (transformTree exampleNodes)),
      m.payload = some exB →
        m.children.map ChartNode.payload
          = (childrenOf exampleNodes exB.id).map some ∧
        ∀ y ∈ m.children, y.children = []) :=
  c6_collapse_expand_one_level (by decide) (by decide) (by decide)
    (by decide) ∅ (by decide)

/-- C7: both guarded ancestor walks terminate on every dataset, cycles
included: the walked path repeats no id, visits only record ids, and
raising the loop fuel beyond the record count changes neither the path
of `getPathToRoot` nor the collapsed set of `ensureNodeVisible`. -/
theorem c7_ancestor_walks_terminate (nodes : List OrgChartDatum) (x : String) :
    (getPathToRoot nodes x).Nodup ∧
    (∀ y ∈ getPathToRoot nodes x, ∃ e ∈ nodes, e.id = y) ∧
    (∀ f, nodes.length + 1 ≤ f →
      getPathToRootAux nodes f [] (lookupById nodes x) =
        getPathToRoot nodes x) ∧
    (∀ f, nodes.length + 1 ≤ f → ∀ S,
      ensureNodeVisibleAux nodes f [] (lookupById nodes x) S =
        ensureNodeVisible nodes S x) := by
  have hcur : ∀ d, lookupById nodes x = some d → d ∈ nodes :=
    fun d h => (lookupById_eq_some h).1
  have hmeas : walkMeasure nodes [] ≤ nodes.length :=
    walkMeasure_le_length nodes []
  refine ⟨(getPathToRootAux_nodup (nodes.length + 1) []
      (lookupById nodes x)).1,
    getPathToRootAux_subset (nodes.length + 1) [] (lookupById nodes x) hcur,
    ?_, ?_⟩
  · intro f hf
    exact getPathToRootAux_stable f (nodes.length + 1) [] _ hcur
      (by omega) (by omega)
  · intro f hf S
    rw [ensureNodeVisibleAux_eq_sdiff]
    unfold ensureNodeVisible
    rw [ensureNodeVisibleAux_eq_sdiff,
      getPathToRootAux_stable f (nodes.length + 1) [] _ hcur
        (by omega) (by omega)]

/-- C7 (witness): on the cyclic dataset the walk from A stabilizes at
fuel three and beyond. -/
theorem c7_witness :
    getPathToRootAux cycleNodes 7 [] (lookupById cycleNodes "A") =
      getPathToRoot cycleNodes "A" :=
  (c7_ancestor_walks_terminate cycleNodes "A").2.2.1 7 (by decide)

/-- C8 (counterexample): with a viewport of positive width one half and
height 100 over the example bounds, the computed scale uses the width
clamped up to 1, so it differs from the claimed minimum of the raw
viewport ratios. -/
theorem c8_counterexample :
    (0 : ℚ) < 1 / 2 ∧ (0 : ℚ) < 100 ∧
    (fitToViewport cexBounds (1 / 2) 100).scale ≠
      min ((1 / 2) / contentWidth cexBounds)
        (100 / contentHeight cexBounds) := by
  refine ⟨by norm_num, by norm_num, ?_⟩
  norm_num [fitToViewport, contentWidth, contentHeight, cexBounds]

/-- C8 (amended): for every content bounds and every viewport whose
width and height are at least 1 (the code clamps both dimensions below
by 1), the fitted scale is the minimum of the width and height ratios
between the viewport and the padded content bounds. -/
theorem c8_fit_scale_min {b : LayoutBounds} {vw vh : ℚ}
    (hw : 1 ≤ vw) (hh : 1 ≤ vh) :
    (fitToViewport b vw vh).scale =
      min (vw / contentWidth b) (vh / contentHeight b) := by
  unfold fitToViewport
  simp only
  rw [max_eq_left hw, max_eq_left hh]

/-- C8 (witness): a 300 by 150 viewport over the example bounds. -/
theorem c8_witness :
    (fitToViewport cexBounds 300 150).scale =
      min (300 / contentWidth cexBounds) (150 / contentHeight cexBounds) :=
  c8_fit_scale_min (by norm_num) (by norm_num)

/-- C9: `transform` yields a null tree exactly when the employee-id role
is unbound, the manager-id role is unbound, or no row carries a
non-empty employee id; and it carries a (non-empty) warning list exactly
in those cases.  The embedding is a total function, matching the
contract that the normalizer never throws. -/
theorem c9_transform_no_chart_iff (columns : List RoleColumn)
    (rows : List RawRow) :
    ((transform columns rows).tree = none ↔
      (roleIndex columns "employeeId" = none ∨
       roleIndex columns "managerId" = none ∨
       ∀ r ∈ rows, hasValidEmployeeId columns r = false)) ∧
    ((transform columns rows).tree = none ↔
      (transform columns rows).warnings ≠ []) := by
  rcases h1 : roleIndex columns "employeeId" with _ | i
  · have htr : transform columns rows
        = { tree := none, warnings := ["Employee Id field is required"] } := by
      unfold transform
      rw [h1]
      rfl
    rw [htr]
    exact ⟨by simp, by simp⟩
  · rcases h2 : roleIndex columns "managerId" with _ | mi
    · have htr : transform columns rows
          = { tree := none, warnings := ["Manager Id field is required"] } := by
        unfold transform
        rw [h1, h2]
        rfl
      rw [htr]
      exact ⟨by simp, by simp⟩
    · have htr : transform columns rows
          = if (normalizeRows columns rows).isEmpty
            then { tree := none, warnings := ["No valid rows"] }
            else { tree := some (transformTree (normalizeRows columns rows)),
                   warnings := [] } := by
        unfold transform
        rw [h1, h2]
        rfl
      by_cases h3 : (normalizeRows columns rows).isEmpty
      · rw [htr, if_pos h3]
        have h3' : ∀ r ∈ rows, hasValidEmployeeId columns r = false :=
          (normalizeRows_eq_nil_iff columns rows).mp (List.isEmpty_iff.mp h3)
        exact ⟨iff_of_true rfl (Or.inr (Or.inr h3')), iff_of_true rfl (by simp)⟩
      · rw [htr, if_neg h3]
        have h3' : ¬ ∀ r ∈ rows, hasValidEmployeeId columns r = false := by
          intro hall
          exact h3 (List.isEmpty_iff.mpr
            ((normalizeRows_eq_nil_iff columns rows).mpr hall))
        constructor
        · constructor
          · intro h; cases h
          · rintro (h | h | h)
            · cases h
            · cases h
            · exact absurd h h3'
        · constructor
          · intro h; cases h
          · intro hw
            exact absurd rfl hw

/-- C9 (witness): a column binding with no manager role produces a null
tree with a warning. -/
theorem c9_witness : (transform exColumnsNoManager exRows).tree = none :=
  (c9_transform_no_chart_iff exColumnsNoManager exRows).1.mpr
    (Or.inr (Or.inl (by decide)))

/-- C10: on a node id present in the dataset, `ensureNodeVisible`
removes the id itself from the collapsed set (not only its ancestors),
and removes nothing outside the walked parent chain `getPathToRoot`. -/
theorem c10_ensureVisible_frame {nodes : List OrgChartDatum}
    (hn : (nodeIds nodes).Nodup) (S : Finset String) {x : String}
    (hx : ∃ d ∈ nodes, d.id = x) :
    x ∉ ensureNodeVisible nodes S x ∧
    ∀ y ∈ S, y ∉ getPathToRoot nodes x → y ∈ ensureNodeVisible nodes S x := by
  obtain ⟨d, hd, rfl⟩ := hx
  rw [ensureNodeVisible_eq_sdiff]
  constructor
  · intro hmem
    rw [Finset.mem_sdiff] at hmem
    apply hmem.2
    rw [List.mem_toFinset]
    unfold getPathToRoot
    rw [lookupById_self hn hd]
    show d.id ∈ getPathToRootAux nodes (nodes.length + 1) [] (some d)
    simp only [getPathToRootAux]
    rw [if_neg (List.not_mem_nil d.id)]
    exact List.mem_cons_self _ _
  · intro y hy hyp
    rw [Finset.mem_sdiff, List.mem_toFinset]
    exact ⟨hy, hyp⟩

/-- C10 (witness): ensuring visibility of B removes B from the
collapsed set while the unrelated id Q survives. -/
theorem c10_witness :
    "B" ∉ ensureNodeVisible exampleNodes {"B", "Q"} "B" ∧
    "Q" ∈ ensureNodeVisible exampleNodes {"B", "Q"} "B" := by
  have h := @c10_ensureVisible_frame exampleNodes (by decide)
    {"B", "Q"} "B" ⟨exB, by decide, rfl⟩
  exact ⟨h.1, h.2 "Q" (by decide) (by decide)⟩

end OrgChart
